import Mathlib

/-!
# Iterative SAXPY with a fixed pool of worker threads (`saxpy-threads.c`)

A shallow embedding of `saxpy_parallel` and of the parts of `main` that parse
`-p`, fill the vectors, reduce the per-worker partial sums and print the
report, together with the properties of the partition, of the worker and of
the reduction.

C `int` values are modelled as `Int`; the `/` and `%` of C on `int` are the
truncating `Int.tdiv` and `Int.tmod`.
-/

namespace Saxpy

/-! ## The partition computed at the top of `saxpy_parallel` -/

/-- The statement `int chunk_size = p / n_threads;`. -/
def chunk_size (p n_threads : Int) : Int := Int.tdiv p n_threads

/-- The statement `int extra = p % n_threads;`. -/
def extra (p n_threads : Int) : Int := Int.tmod p n_threads

/-- The statement
`int start = data->id * chunk_size + (data->id < extra ? data->id : extra);`. -/
def start (p n_threads id : Int) : Int :=
  id * chunk_size p n_threads + (if id < extra p n_threads then id else extra p n_threads)

/-- The statement `int end = start + chunk_size + (data->id < extra ? 1 : 0);`. -/
def end_ (p n_threads id : Int) : Int :=
  start p n_threads id + chunk_size p n_threads + (if id < extra p n_threads then 1 else 0)

/-- The range of a C `int` (32 bits, two's complement). -/
def INT_MIN : Int := -2147483648

/-- The largest C `int`. -/
def INT_MAX : Int := 2147483647

/-- A value fits in a C `int`. -/
def fitsInt (v : Int) : Prop := INT_MIN ≤ v ∧ v ≤ INT_MAX

instance (v : Int) : Decidable (fitsInt v) := by
  unfold fitsInt; exact inferInstance


/-! ## Memory and `double` arithmetic -/

/-- The operations on `double` the program performs: the constant `0.0`, `+`, `*`, `/`
and the conversion of an `int` (`Y_avgs[it] /= p`). The worker and the reduction are
written against this interface, so what is proved of them for every `DoubleOps` holds
for IEEE-754 arithmetic in particular, rounding, infinities and NaN included. -/
structure DoubleOps (α : Type) where
  zero : α
  add : α → α → α
  mul : α → α → α
  div : α → α → α
  ofInt : Int → α

/-- Reading `xs[i]` for an `int` index: undefined (no result) outside `0 ≤ i < length`. -/
def readAt {α : Type} (xs : List α) (i : Int) : Option α :=
  if 0 ≤ i then xs[i.toNat]? else none

/-- Writing `xs[i] = v` for an `int` index: undefined outside `0 ≤ i < length`. -/
def writeAt {α : Type} (xs : List α) (i : Int) (v : α) : Option (List α) :=
  if 0 ≤ i ∧ i.toNat < xs.length then some (xs.set i.toNat v) else none

/-- A C loop `for (int i = lo; ...; i++) body` that runs `k` more times from `i = lo`. -/
def loopN {σ : Type} (body : Int → σ → Option σ) : Nat → Int → σ → Option σ
  | 0, _, s => some s
  | k + 1, i, s => (body i s).bind (loopN body k (i + 1))

/-- The loop `for (int i = lo; i < hi; i++) body`, whose body changes neither `i` nor
the bounds: it runs for `i = lo, lo + 1, ..., hi - 1`, not at all when `hi ≤ lo`. -/
def forLoop {σ : Type} (lo hi : Int) (body : Int → σ → Option σ) (s : σ) : Option σ :=
  loopN body (hi - lo).toNat lo s

/-- An access to an array made by a worker: a read of `X[i]`, a read or a write of
`Y[i]`, a read or a write of `data->local_Y_avgs[it]`. -/
inductive Access where
  | readX (i : Int) : Access
  | readY (i : Int) : Access
  | writeY (i : Int) : Access
  | readLocal (it : Int) : Access
  | writeLocal (it : Int) : Access
  deriving DecidableEq

/-- The index of an access. -/
def Access.index : Access → Int
  | .readX i => i
  | .readY i => i
  | .writeY i => i
  | .readLocal t => t
  | .writeLocal t => t

/-- An access is to one of the vectors `X`, `Y`. -/
def Access.isVector : Access → Bool
  | .readX _ => true
  | .readY _ => true
  | .writeY _ => true
  | .readLocal _ => false
  | .writeLocal _ => false

/-- An access is a write. -/
def Access.isWrite : Access → Bool
  | .writeY _ => true
  | .writeLocal _ => true
  | _ => false

/-- An access to `X` or `Y` has its index in `[lo, hi)`, an access to the buffer
`local_Y_avgs` has its index in `[0, M)`. -/
def Access.within (lo hi M : Int) : Access → Prop
  | .readX i => lo ≤ i ∧ i < hi
  | .readY i => lo ≤ i ∧ i < hi
  | .writeY i => lo ≤ i ∧ i < hi
  | .readLocal t => 0 ≤ t ∧ t < M
  | .writeLocal t => 0 ≤ t ∧ t < M

/-- The accesses of one execution of the inner loop body, in order. -/
def body_trace (it i : Int) : List Access :=
  [.readY i, .readX i, .writeY i, .readLocal it, .readY i, .writeLocal it]

/-- The fields of `thread_data_t` that carry data (the mutex holds none). -/
structure thread_data_t (α : Type) where
  local_Y_avgs : List α
  Y_avg : α
  id : Int

/-- What a run of `saxpy_parallel` can change: the shared vector `Y` and the record
passed as its argument. `trace` is a ghost field: the array accesses made so far, in
order. -/
structure WorkerMem (α : Type) where
  Y : List α
  data : thread_data_t α
  trace : List Access

/-- The body of the inner loop:
`Y[i] = Y[i] + a * X[i]; data->local_Y_avgs[it] += Y[i];` -/
def inner_body {α : Type} (A : DoubleOps α) (X : List α) (a : α) (it i : Int)
    (m : WorkerMem α) : Option (WorkerMem α) :=
  (readAt X i).bind fun x =>
  (readAt m.Y i).bind fun y =>
  (writeAt m.Y i (A.add y (A.mul a x))).bind fun Y1 =>
  (readAt Y1 i).bind fun y1 =>
  (readAt m.data.local_Y_avgs it).bind fun l =>
  (writeAt m.data.local_Y_avgs it (A.add l y1)).bind fun L1 =>
  some { Y := Y1, data := { m.data with local_Y_avgs := L1 }, trace := m.trace ++ body_trace it i }

/-- The body of the outer loop: the inner loop over `[start, end)`, then
`data->Y_avg += data->local_Y_avgs[it];` (under the worker's own lock). -/
def outer_body {α : Type} (A : DoubleOps α) (X : List α) (a : α) (lo hi : Int) (it : Int)
    (m : WorkerMem α) : Option (WorkerMem α) :=
  (forLoop lo hi (inner_body A X a it) m).bind fun m1 =>
  (readAt m1.data.local_Y_avgs it).bind fun l =>
  some { m1 with data := { m1.data with Y_avg := A.add m1.data.Y_avg l },
                 trace := m1.trace ++ [.readLocal it] }

/-- The function `saxpy_parallel`, run on the record `data` with the globals `X`, `a`, `p`,
`n_threads`, `max_iters`. A division by zero (`n_threads = 0`) has no result. -/
def saxpy_parallel {α : Type} (A : DoubleOps α) (X : List α) (a : α) (p n_threads max_iters : Int)
    (m : WorkerMem α) : Option (WorkerMem α) :=
  if n_threads = 0 then none
  else
    forLoop 0 max_iters
      (outer_body A X a (start p n_threads m.data.id) (end_ p n_threads m.data.id)) m

/-! ## The globals of the program and `main` -/

/-- The global variables and the heap array `thread_data` of `main`. -/
structure Globals (α : Type) where
  X : List α
  a : α
  Y : List α
  Y_avgs : List α
  p : Int
  n_threads : Int
  max_iters : Int
  thread_data : List (thread_data_t α)
  trace : List Access

/-- The thread created by `pthread_create(&threads[k], NULL, saxpy_parallel, &thread_data[k])`,
run to completion. -/
def run_thread {α : Type} (A : DoubleOps α) (k : Nat) (g : Globals α) : Option (Globals α) :=
  (g.thread_data[k]?).bind fun d =>
  (saxpy_parallel A g.X g.a g.p g.n_threads g.max_iters
      { Y := g.Y, data := d, trace := g.trace }).bind fun m =>
  some { g with Y := m.Y, thread_data := g.thread_data.set k m.data, trace := m.trace }

/-- The parallel phase (creation of the threads up to the last `pthread_join`), with the
threads completing one after the other in the order `order`. No two workers access the
same element of `X` or `Y`, nor the same record of `thread_data`, so the result does not
depend on how their steps interleave; the properties below hold for every order. -/
def run_threads {α : Type} (A : DoubleOps α) : List Nat → Globals α → Option (Globals α)
  | [], g => some g
  | k :: ks, g => (run_thread A k g).bind (run_threads A ks)

/-- The allocation loop of `main` for `thread_data` (`calloc` gives zeros, `Y_avg = 0.0`,
`id = i`). -/
def init_thread_data {α : Type} (A : DoubleOps α) (n_threads max_iters : Int) :
    List (thread_data_t α) :=
  (List.range n_threads.toNat).map fun (i : Nat) =>
    { local_Y_avgs := List.replicate max_iters.toNat A.zero, Y_avg := A.zero, id := (i : Int) }

/-- The state of `main` when the threads are created: `X`, `Y` and `a` filled,
`Y_avgs[i] = 0.0` for every `i`. -/
def init_globals {α : Type} (A : DoubleOps α) (X Y : List α) (a : α) (p n_threads max_iters : Int) :
    Globals α :=
  { X := X, a := a, Y := Y, Y_avgs := List.replicate max_iters.toNat A.zero,
    p := p, n_threads := n_threads, max_iters := max_iters,
    thread_data := init_thread_data A n_threads max_iters, trace := [] }

/-- The body of the inner reduction loop: `Y_avgs[it] += thread_data[i].local_Y_avgs[it];` -/
def reduce_inner {α : Type} (A : DoubleOps α) (td : List (thread_data_t α)) (it i : Int)
    (avgs : List α) : Option (List α) :=
  (readAt td i).bind fun d =>
  (readAt d.local_Y_avgs it).bind fun l =>
  (readAt avgs it).bind fun v =>
  writeAt avgs it (A.add v l)

/-- The body of the outer reduction loop: the inner loop over the workers, then
`Y_avgs[it] /= p;`. -/
def reduce_outer {α : Type} (A : DoubleOps α) (td : List (thread_data_t α)) (p n_threads : Int)
    (it : Int) (avgs : List α) : Option (List α) :=
  (forLoop 0 n_threads (reduce_inner A td it) avgs).bind fun avgs1 =>
  (readAt avgs1 it).bind fun v =>
  writeAt avgs1 it (A.div v (A.ofInt p))

/-- The reduction loop of `main` after the joins. -/
def reduce {α : Type} (A : DoubleOps α) (g : Globals α) : Option (Globals α) :=
  (forLoop 0 g.max_iters (reduce_outer A g.thread_data g.p g.n_threads) g.Y_avgs).bind fun avgs =>
  some { g with Y_avgs := avgs }

/-- The timed part of `main`: the parallel phase, then the reduction. -/
def compute {α : Type} (A : DoubleOps α) (order : List Nat) (g : Globals α) : Option (Globals α) :=
  (run_threads A order g).bind (reduce A)

/-! ### Reference values: what a sequential pass computes -/

/-- One SAXPY update of an element: `y + a * x`. -/
def saxpy_elem {α : Type} (A : DoubleOps α) (a x y : α) : α := A.add y (A.mul a x)

/-- The memory after one execution of the inner loop body at an index `i` inside `X` and
`Y` and an iteration `t` inside `local_Y_avgs`. -/
def inner_step {α : Type} (A : DoubleOps α) (X : List α) (a : α) (t i : Nat)
    (m : WorkerMem α) : WorkerMem α :=
  { Y := m.Y.set i (saxpy_elem A a (X.getD i A.zero) (m.Y.getD i A.zero)),
    data := { m.data with
      local_Y_avgs := m.data.local_Y_avgs.set t
        (A.add (m.data.local_Y_avgs.getD t A.zero)
          (saxpy_elem A a (X.getD i A.zero) (m.Y.getD i A.zero))) },
    trace := m.trace ++ body_trace (t : Int) (i : Int) }

/-- The vector `Y` after `k` SAXPY updates of every element. -/
def Y_after {α : Type} (A : DoubleOps α) (a : α) (X Y : List α) (k : Nat) : List α :=
  List.zipWith (fun x y => (saxpy_elem A a x)^[k] y) X Y

/-- The sum of a list of `double`s accumulated left to right from `0.0`. -/
def sum_left {α : Type} (A : DoubleOps α) (xs : List α) : α := xs.foldl A.add A.zero

/-- The mean of a vector as a sequential pass computes it: the left-to-right sum
divided by `p`. -/
def mean_seq {α : Type} (A : DoubleOps α) (p : Int) (xs : List α) : α :=
  A.div (sum_left A xs) (A.ofInt p)

/-- The slice `xs[lo .. hi)` of a list. -/
def slice {α : Type} (xs : List α) (lo hi : Int) : List α :=
  (xs.drop lo.toNat).take (hi - lo).toNat

/-- The partial sum worker `id` leaves in `local_Y_avgs[it]`: the left-to-right sum of
its chunk of `Y` after `it + 1` updates. -/
def chunk_sum {α : Type} (A : DoubleOps α) (a : α) (X Y : List α) (p n_threads : Int)
    (it : Nat) (id : Nat) : α :=
  sum_left A (slice (Y_after A a X Y (it + 1)) (start p n_threads id) (end_ p n_threads id))

/-- The mean as the program computes it: the partial sums of the workers added in the
order of the worker ids from `0.0`, divided by `p`. -/
def mean_chunked {α : Type} (A : DoubleOps α) (a : α) (X Y : List α) (p n_threads : Int)
    (it : Nat) : α :=
  A.div (sum_left A ((List.range n_threads.toNat).map (chunk_sum A a X Y p n_threads it)))
    (A.ofInt p)

/-! ### Postconditions of the loops of the worker -/

/-- The accesses of the inner loop over the `k` indices from `lo`, in iteration `t`. -/
def inner_trace (lo k t : Nat) : List Access :=
  ((List.range' lo k).map fun (j : Nat) => body_trace (t : Int) (j : Int)).flatten

/-- The accesses of one iteration `t` of the outer loop of a worker whose range has `k`
indices from `lo`: the inner loop, then the read of `local_Y_avgs[t]`. -/
def iter_trace (lo k t : Nat) : List Access :=
  inner_trace lo k t ++ [.readLocal (t : Int)]

/-- The state a run of the inner loop over `[i, i + k)` reaches, element by element. -/
structure InnerPost {α : Type} (A : DoubleOps α) (X : List α) (a : α) (t i k : Nat)
    (m m1 : WorkerMem α) : Prop where
  lenY : m1.Y.length = m.Y.length
  lenL : m1.data.local_Y_avgs.length = m.data.local_Y_avgs.length
  avg : m1.data.Y_avg = m.data.Y_avg
  id_eq : m1.data.id = m.data.id
  trace_eq : m1.trace = m.trace ++ inner_trace i k t
  valY : ∀ j, m1.Y.getD j A.zero =
    if i ≤ j ∧ j < i + k then saxpy_elem A a (X.getD j A.zero) (m.Y.getD j A.zero)
    else m.Y.getD j A.zero
  valL_ne : ∀ s, s ≠ t → m1.data.local_Y_avgs.getD s A.zero = m.data.local_Y_avgs.getD s A.zero
  valL : m1.data.local_Y_avgs.getD t A.zero =
    (List.range' i k).foldl
      (fun acc j => A.add acc (saxpy_elem A a (X.getD j A.zero) (m.Y.getD j A.zero)))
      (m.data.local_Y_avgs.getD t A.zero)

/-- The state a run of the outer loop over the iterations `[t, t + r)` reaches, for a
worker whose range is `[lo, hi)`. -/
structure OuterPost {α : Type} (A : DoubleOps α) (X : List α) (a : α) (lo hi t r : Nat)
    (m m1 : WorkerMem α) : Prop where
  lenY : m1.Y.length = m.Y.length
  lenL : m1.data.local_Y_avgs.length = m.data.local_Y_avgs.length
  id_eq : m1.data.id = m.data.id
  trace_eq : m1.trace =
    m.trace ++ ((List.range' t r).map (iter_trace lo (hi - lo))).flatten
  valY : ∀ j, m1.Y.getD j A.zero =
    if lo ≤ j ∧ j < hi then (saxpy_elem A a (X.getD j A.zero))^[r] (m.Y.getD j A.zero)
    else m.Y.getD j A.zero
  valL_out : ∀ s, (s < t ∨ t + r ≤ s) →
    m1.data.local_Y_avgs.getD s A.zero = m.data.local_Y_avgs.getD s A.zero
  valL : ∀ s, t ≤ s → s < t + r → m1.data.local_Y_avgs.getD s A.zero =
    (List.range' lo (hi - lo)).foldl
      (fun acc j => A.add acc ((saxpy_elem A a (X.getD j A.zero))^[s - t + 1] (m.Y.getD j A.zero)))
      (m.data.local_Y_avgs.getD s A.zero)

/-- The first index of the range of worker `k`, as a natural number. -/
def lo_of (p n_threads : Int) (k : Nat) : Nat := (start p n_threads (k : Int)).toNat

/-- The index after the last one of the range of worker `k`, as a natural number. -/
def hi_of (p n_threads : Int) (k : Nat) : Nat := (end_ p n_threads (k : Int)).toNat

/-- Index `j` lies in the range of worker `k`. -/
def owns (p n_threads : Int) (k j : Nat) : Prop :=
  lo_of p n_threads k ≤ j ∧ j < hi_of p n_threads k

instance (p n_threads : Int) (k j : Nat) : Decidable (owns p n_threads k j) := by
  unfold owns; exact inferInstance

/-- The state of the program during the parallel phase, once the workers of `done` have
completed and the others have not started, from initial vectors `X`, `Y`. -/
structure ThreadsInv {α : Type} (A : DoubleOps α) (X Y : List α) (a : α) (p n : Int) (M : Nat)
    (done : List Nat) (g : Globals α) : Prop where
  hX : g.X = X
  ha : g.a = a
  hp : g.p = p
  hn : g.n_threads = n
  hm : g.max_iters = (M : Int)
  havgs : g.Y_avgs = List.replicate M A.zero
  lenY : g.Y.length = Y.length
  lenTD : g.thread_data.length = n.toNat
  td : ∀ k, k < n.toNat → ∃ d, g.thread_data[k]? = some d ∧ d.id = (k : Int) ∧
    d.local_Y_avgs.length = M ∧
    (k ∈ done → ∀ s, s < M → d.local_Y_avgs.getD s A.zero = chunk_sum A a X Y p n s k) ∧
    (k ∉ done → ∀ s, s < M → d.local_Y_avgs.getD s A.zero = A.zero)
  valY_done : ∀ j k, k ∈ done → owns p n k j →
    g.Y.getD j A.zero = (saxpy_elem A a (X.getD j A.zero))^[M] (Y.getD j A.zero)
  valY_rest : ∀ j, (∀ k, k ∈ done → ¬ owns p n k j) → g.Y.getD j A.zero = Y.getD j A.zero
  trace : ∀ x, x ∈ g.trace → Access.within 0 p (M : Int) x

/-- The value of `thread_data[w].local_Y_avgs[t]` (`0.0` where there is no such element). -/
def local_val {α : Type} (A : DoubleOps α) (td : List (thread_data_t α)) (w t : Nat) : α :=
  ((td[w]?).map fun d => d.local_Y_avgs.getD t A.zero).getD A.zero

/-- The buffers of all `n` workers exist and hold at least `M` elements. -/
def buffers_ok {α : Type} (td : List (thread_data_t α)) (n M : Nat) : Prop :=
  ∀ w, w < n → ∃ d, td[w]? = some d ∧ M ≤ d.local_Y_avgs.length

/-- The accesses of a whole run of worker `k`, in order: the `M` iterations of its outer
loop over its range. -/
def worker_trace (p n_threads : Int) (M k : Nat) : List Access :=
  ((List.range' 0 M).map
    (iter_trace (lo_of p n_threads k) (hi_of p n_threads k - lo_of p n_threads k))).flatten

/-! ## IEEE-754 binary64 arithmetic, round to nearest, ties to even

The `double` operations of the program on the usual platforms. A finite value is kept as
a sign and a magnitude, the magnitude being the rational number it denotes. -/

/-- A `double`: a NaN, an infinity, or a finite value `(-1)^neg * mag`. -/
inductive Double where
  | nan : Double
  | inf (neg : Bool) : Double
  | fin (neg : Bool) (mag : ℚ) : Double
  deriving DecidableEq

/-- Rounding of a rational `k ≥ 0` to the nearest natural number, ties to the even one. -/
def roundHalfEven (k : ℚ) : Nat :=
  let f := ⌊k⌋₊
  let r := k - f
  if r < 1 / 2 then f
  else if 1 / 2 < r then f + 1
  else if f % 2 = 0 then f else f + 1

/-- The number of binary digits of `n`, by halving at most `fuel` times. -/
def bitLenAux : Nat → Nat → Nat
  | 0, _ => 0
  | fuel + 1, n => if n = 0 then 0 else bitLenAux fuel (n / 2) + 1

/-- The number of binary digits of `n` (`0` for `n = 0`). -/
def bitLen (n : Nat) : Nat := bitLenAux n n

/-- The binary exponent of `q > 0`: the integer `l` with `2^l ≤ q < 2^(l + 1)`, which
is the difference of the digit counts of numerator and denominator, or one less. -/
def ilog2 (q : ℚ) : Int :=
  if (2 : ℚ) ^ ((bitLen q.num.toNat : Int) - (bitLen q.den : Int)) ≤ q then
    (bitLen q.num.toNat : Int) - (bitLen q.den : Int)
  else (bitLen q.num.toNat : Int) - (bitLen q.den : Int) - 1

/-- The exponent of the unit in the last place of binary64 around `q > 0`: 53 significant
bits, and never below the subnormal spacing `2^-1074`. -/
def ulpExp (q : ℚ) : Int := max (ilog2 q - 52) (-1074)

/-- The magnitude `q ≥ 0` rounded to the binary64 grid, before the overflow test. -/
def roundMag (q : ℚ) : ℚ :=
  if q = 0 then 0 else (roundHalfEven (q / (2 : ℚ) ^ ulpExp q) : ℚ) * (2 : ℚ) ^ ulpExp q

/-- The `double` nearest to `(-1)^neg * q` for an exact magnitude `q ≥ 0`: an infinity
when the rounded magnitude exceeds the largest finite one. -/
def roundTo (neg : Bool) (q : ℚ) : Double :=
  if (2 : ℚ) ^ (1024 : Nat) ≤ roundMag q then Double.inf neg else Double.fin neg (roundMag q)

/-- The rational a sign and a magnitude denote. -/
def signed (neg : Bool) (mag : ℚ) : ℚ := if neg then -mag else mag

/-- The `+` of `double`. -/
def Double.add : Double → Double → Double
  | .nan, _ => .nan
  | _, .nan => .nan
  | .inf s, .inf t => if s = t then .inf s else .nan
  | .inf s, .fin _ _ => .inf s
  | .fin _ _, .inf t => .inf t
  | .fin s x, .fin t y =>
    let v := signed s x + signed t y
    if v = 0 then .fin (s && t) 0 else roundTo (decide (v < 0)) |v|

/-- The `*` of `double`. -/
def Double.mul : Double → Double → Double
  | .nan, _ => .nan
  | _, .nan => .nan
  | .inf s, .inf t => .inf (xor s t)
  | .inf s, .fin t y => if y = 0 then .nan else .inf (xor s t)
  | .fin s x, .inf t => if x = 0 then .nan else .inf (xor s t)
  | .fin s x, .fin t y => roundTo (xor s t) (x * y)

/-- The `/` of `double`. -/
def Double.div : Double → Double → Double
  | .nan, _ => .nan
  | _, .nan => .nan
  | .inf _, .inf _ => .nan
  | .inf s, .fin t _ => .inf (xor s t)
  | .fin s _, .inf t => .fin (xor s t) 0
  | .fin s x, .fin t y =>
    if y = 0 then (if x = 0 then .nan else .inf (xor s t)) else roundTo (xor s t) (x / y)

/-- The conversion `(double)n` of an integer. -/
def Double.ofInt (n : Int) : Double := roundTo (decide (n < 0)) |(n : ℚ)|

/-- The comparison `x <= y` of `double` (false when an operand is a NaN). -/
def Double.le : Double → Double → Bool
  | .nan, _ => false
  | _, .nan => false
  | .inf s, .inf t => s || !t
  | .inf s, .fin _ _ => s
  | .fin _ _, .inf t => !t
  | .fin s x, .fin t y => decide (signed s x ≤ signed t y)

/-- The comparison `x < y` of `double` (false when an operand is a NaN). -/
def Double.lt : Double → Double → Bool
  | .nan, _ => false
  | _, .nan => false
  | .inf s, .inf t => s && !t
  | .inf s, .fin _ _ => s
  | .fin _ _, .inf t => !t
  | .fin s x, .fin t y => decide (signed s x < signed t y)

/-- IEEE-754 binary64 arithmetic as the `double` operations of the program. -/
def ieee : DoubleOps Double :=
  { zero := Double.fin false 0, add := Double.add, mul := Double.mul, div := Double.div,
    ofInt := Double.ofInt }

/-- Exact rational arithmetic, the idealisation in which no operation rounds. -/
def exactOps : DoubleOps ℚ :=
  { zero := 0, add := fun x y => x + y, mul := fun x y => x * y, div := fun x y => x / y,
    ofInt := fun n => (n : ℚ) }

/-! ## The initialiser -/

/-- The value `(double)rand() / RAND_MAX` stored in `X[i]`, `Y[i]` and `a`, for a generator
output `r` and the constant `RAND_MAX` of the C library. -/
def rand_unit (RAND_MAX r : Int) : Double :=
  Double.div (Double.ofInt r) (Double.ofInt RAND_MAX)

/-! ## Option handling for `-p` -/

/-- The least `long`, for a `long` of `LONG_BITS` bits. -/
def LONG_MIN (LONG_BITS : Nat) : Int := -(2 ^ (LONG_BITS - 1))

/-- The greatest `long`, for a `long` of `LONG_BITS` bits. -/
def LONG_MAX (LONG_BITS : Nat) : Int := 2 ^ (LONG_BITS - 1) - 1

/-- The result of the C library call `strtol(optarg, NULL, 10)` on a decimal numeral that
denotes the integer `v`: the value itself, or the nearest bound of `long` when it is out
of range. The width of `long` is a parameter: 64 on the LP64 platforms the program is
written for, 32 elsewhere. -/
def strtol (LONG_BITS : Nat) (v : Int) : Int :=
  if v < LONG_MIN LONG_BITS then LONG_MIN LONG_BITS
  else if LONG_MAX LONG_BITS < v then LONG_MAX LONG_BITS else v

/-- The conversion of a `long` to `int` in the assignment `p = strtol(...)`: the value
modulo `2^32`, in two's complement. -/
def long_to_int (x : Int) : Int := (x + 2147483648) % 4294967296 - 2147483648

/-- The case `'p'` of the option loop, `p = strtol(optarg, NULL, 10);
assert(p > 0 && p <= 2147483647);`: the accepted `p`, or no result when the assertion
aborts the run. -/
def parse_p (LONG_BITS : Nat) (v : Int) : Option Int :=
  if 0 < long_to_int (strtol LONG_BITS v) ∧ long_to_int (strtol LONG_BITS v) ≤ 2147483647 then
    some (long_to_int (strtol LONG_BITS v))
  else none

/-! ## The final report -/

/-- A subscript evaluated by the report: `Y[i]` or `Y_avgs[i]`. -/
inductive ReportRead where
  | ofY (i : Int) : ReportRead
  | ofAvgs (i : Int) : ReportRead
  deriving DecidableEq

/-- The index of a subscript of the report. -/
def ReportRead.index : ReportRead → Int
  | .ofY i => i
  | .ofAvgs i => i

/-- An `int` index is inside an array of `len` elements. -/
def in_bounds (len : Nat) (i : Int) : Prop := 0 ≤ i ∧ i < (len : Int)

instance (len : Nat) (i : Int) : Decidable (in_bounds len i) := by
  unfold in_bounds; exact inferInstance

/-- A subscript of the report is inside its array, `Y` of `lenY` elements or `Y_avgs` of
`lenAvgs` elements. -/
def ReportRead.inside (lenY lenAvgs : Nat) : ReportRead → Prop
  | .ofY i => in_bounds lenY i
  | .ofAvgs i => in_bounds lenAvgs i

/-- One argument `xs[i]` of a `printf` of the report. The subscript is logged whether or
not it is inside the array; the value joins the values read so far when it is, and there
are no values to print once a subscript is outside. -/
def read_logged {α : Type} (xs : List α) (tag : Int → ReportRead) (i : Int)
    (st : List ReportRead × Option (List α)) : List ReportRead × Option (List α) :=
  (st.1 ++ [tag i], st.2.bind fun vs => (readAt xs i).map fun v => vs ++ [v])

/-- The arguments `xs[n - 3], xs[n - 2], xs[n - 1]` of one `printf` of the report, after
the subscripts of `log`. -/
def print_last3 {α : Type} (xs : List α) (tag : Int → ReportRead) (n : Int)
    (log : List ReportRead) : List ReportRead × Option (List α) :=
  read_logged xs tag (n - 1) (read_logged xs tag (n - 2)
    (read_logged xs tag (n - 3) (log, some [])))

/-- The two last `printf` of `main`,
`printf(..., Y[p - 3], Y[p - 2], Y[p - 1])` and
`printf(..., Y_avgs[max_iters - 3], Y_avgs[max_iters - 2], Y_avgs[max_iters - 1])`:
the subscripts they evaluate, in order, and the values they print when every subscript is
inside its array. -/
def report {α : Type} (Y Y_avgs : List α) (p max_iters : Int) :
    List ReportRead × Option (List α × List α) :=
  ((print_last3 Y_avgs ReportRead.ofAvgs max_iters (print_last3 Y ReportRead.ofY p []).1).1,
    (print_last3 Y ReportRead.ofY p []).2.bind fun ys =>
      (print_last3 Y_avgs ReportRead.ofAvgs max_iters (print_last3 Y ReportRead.ofY p []).1).2.map
        fun vs => (ys, vs))

/-! ## Example inputs -/

/-- The `double` `2^-54`. -/
def tiny : Double := Double.fin false (1 / 18014398509481984)

/-- The `double` `0.5`. -/
def half : Double := Double.fin false (1 / 2)

/-- The `double` `1.0`. -/
def one : Double := Double.fin false 1

/-- Four elements whose SAXPY update with `a = 1.0`, `X = Y` gives `1, 2^-53, 2^-53, 2^-53`. -/
def vec4 : List Double := [half, tiny, tiny, tiny]

/-- Eight elements whose SAXPY update with `a = 1.0`, `X = Y` gives
`1, 0, 2^-53, 2^-53, 0, 0, 0, 0`. -/
def vec8 : List Double :=
  [half, ieee.zero, tiny, tiny, ieee.zero, ieee.zero, ieee.zero, ieee.zero]

/-- Four rationals, for runs in exact arithmetic. -/
def qvec4 : List ℚ := [1, 2, 3, 4]

/-- The memory of worker `3` of four before it runs, on vectors of two elements and two
iterations. -/
def idle_mem : WorkerMem Double :=
  { Y := [half, one],
    data := { local_Y_avgs := List.replicate (2 : Int).toNat ieee.zero, Y_avg := ieee.zero, id := 3 },
    trace := [] }

/-- The state of `main` before the threads are created, for `p = 4`, `n_threads = 2`,
`max_iters = 1`, `a = 1.0` and `X = Y = vec4`. -/
def globals4 : Globals Double := init_globals ieee vec4 vec4 one 4 2 1

/-- The record of worker `0` in `globals4`. -/
def data0 : thread_data_t Double := { local_Y_avgs := [ieee.zero], Y_avg := ieee.zero, id := 0 }
/-! ### Arithmetic facts about the partition -/

theorem chunk_size_eq (p n : Int) (hp : 0 ≤ p) (hn : 0 ≤ n) : chunk_size p n = p / n := by
  unfold chunk_size; exact Int.tdiv_eq_ediv hp hn

theorem extra_eq (p n : Int) (hp : 0 ≤ p) (hn : 0 ≤ n) : extra p n = p % n := by
  unfold extra; exact Int.tmod_eq_emod hp hn

theorem chunk_size_nonneg (p n : Int) (hp : 0 ≤ p) (hn : 0 ≤ n) : 0 ≤ chunk_size p n := by
  rw [chunk_size_eq p n hp hn]; exact Int.ediv_nonneg hp hn

theorem extra_nonneg (p n : Int) (hp : 0 ≤ p) (hn : 1 ≤ n) : 0 ≤ extra p n := by
  rw [extra_eq p n hp (by omega)]; exact Int.emod_nonneg _ (by omega)

theorem extra_lt (p n : Int) (hp : 0 ≤ p) (hn : 1 ≤ n) : extra p n < n := by
  rw [extra_eq p n hp (by omega)]; exact Int.emod_lt_of_pos _ (by omega)

/-- The division identity `p = n_threads * chunk_size + extra`. -/
theorem chunk_extra_sum (p n : Int) (hp : 0 ≤ p) (hn : 0 ≤ n) :
    n * chunk_size p n + extra p n = p := by
  rw [chunk_size_eq p n hp hn, extra_eq p n hp hn]; exact Int.ediv_add_emod p n

/-- The end of one range is the start of the next one, for every `id`. -/
theorem end_eq_start_succ (p n id : Int) : end_ p n id = start p n (id + 1) := by
  unfold end_ start
  have h : (id + 1) * chunk_size p n = id * chunk_size p n + chunk_size p n := by ring
  rw [h]
  split_ifs <;> omega

/-- The start of a range does not decrease with the worker id. -/
theorem start_mono (p n : Int) (hp : 0 ≤ p) (hn : 0 ≤ n) (a b : Int) (hab : a ≤ b) :
    start p n a ≤ start p n b := by
  unfold start
  have hc := chunk_size_nonneg p n hp hn
  have h : a * chunk_size p n ≤ b * chunk_size p n := mul_le_mul_of_nonneg_right hab hc
  split_ifs <;> omega

theorem start_zero (p n : Int) (hp : 0 ≤ p) (hn : 1 ≤ n) : start p n 0 = 0 := by
  unfold start
  have := extra_nonneg p n hp hn
  split_ifs <;> omega

theorem start_n (p n : Int) (hp : 0 ≤ p) (hn : 1 ≤ n) : start p n n = p := by
  unfold start
  have h1 := extra_lt p n hp hn
  have h2 := chunk_extra_sum p n hp (by omega)
  rw [if_neg (by omega)]; exact h2

theorem start_le_end (p n id : Int) (hp : 0 ≤ p) (hn : 0 ≤ n) :
    start p n id ≤ end_ p n id := by
  rw [end_eq_start_succ]; exact start_mono p n hp hn id (id + 1) (by omega)

theorem start_nonneg (p n id : Int) (hp : 0 ≤ p) (hn : 1 ≤ n) (hid : 0 ≤ id) :
    0 ≤ start p n id := by
  have h := start_mono p n hp (by omega) 0 id hid
  rw [start_zero p n hp hn] at h
  exact h

theorem end_le_p (p n id : Int) (hp : 0 ≤ p) (hn : 1 ≤ n) (hid : id < n) :
    end_ p n id ≤ p := by
  have h := start_mono p n hp (by omega) (id + 1) n (by omega)
  rw [start_n p n hp hn, ← end_eq_start_succ] at h
  exact h

/-- Every index of `[0, p)` lies in the range of some worker. -/
theorem exists_worker (p n i : Int) (hp : 0 < p) (hn : 1 ≤ n) (hi0 : 0 ≤ i) (hip : i < p) :
    ∃ id, 0 ≤ id ∧ id < n ∧ start p n id ≤ i ∧ i < end_ p n id := by
  have hc := chunk_size_nonneg p n hp.le (by omega)
  have he0 := extra_nonneg p n hp.le hn
  have hen := extra_lt p n hp.le hn
  have hsum := chunk_extra_sum p n hp.le (by omega)
  unfold end_ start
  generalize chunk_size p n = c at *
  generalize extra p n = e at *
  by_cases hlow : i < e * (c + 1)
  · have hc1 : 0 < c + 1 := by omega
    have hdm := Int.ediv_add_emod i (c + 1)
    have hm0 := Int.emod_nonneg i (show c + 1 ≠ 0 by omega)
    have hm1 := Int.emod_lt_of_pos i hc1
    have hq0 : 0 ≤ i / (c + 1) := Int.ediv_nonneg hi0 hc1.le
    have hqe : i / (c + 1) < e := Int.ediv_lt_of_lt_mul hc1 hlow
    refine ⟨i / (c + 1), hq0, by omega, ?_, ?_⟩
    · rw [if_pos hqe]; nlinarith
    · rw [if_pos hqe, if_pos hqe]; nlinarith
  · have hcpos : 0 < c := by
      rcases hc.lt_or_eq with h | h
      · exact h
      · exfalso; subst h; simp at hsum hlow; omega
    have hr0 : 0 ≤ i - e * (c + 1) := by omega
    have hdm := Int.ediv_add_emod (i - e * (c + 1)) c
    have hm0 := Int.emod_nonneg (i - e * (c + 1)) (show c ≠ 0 by omega)
    have hm1 := Int.emod_lt_of_pos (i - e * (c + 1)) hcpos
    have hq0 : 0 ≤ (i - e * (c + 1)) / c := Int.ediv_nonneg hr0 hcpos.le
    have hqn : (i - e * (c + 1)) / c < n - e := by
      apply Int.ediv_lt_of_lt_mul hcpos
      nlinarith
    have hnot : ¬ (e + (i - e * (c + 1)) / c < e) := by omega
    refine ⟨e + (i - e * (c + 1)) / c, by omega, by omega, ?_, ?_⟩
    · rw [if_neg hnot]; nlinarith
    · rw [if_neg hnot, if_neg hnot]; nlinarith

/-- Two distinct workers own disjoint ranges. -/
theorem ranges_disjoint (p n a b i : Int) (hp : 0 ≤ p) (hn : 0 ≤ n) (hab : a < b)
    (hia : i < end_ p n a) : ¬ (start p n b ≤ i) := by
  have h := start_mono p n hp hn (a + 1) b (by omega)
  rw [← end_eq_start_succ] at h
  omega

/-! ### Memory accesses at indices that are natural numbers -/

theorem readAt_natCast {α : Type} (xs : List α) (j : Nat) : readAt xs (j : Int) = xs[j]? := by
  simp [readAt]

theorem readAt_of_lt {α : Type} (xs : List α) (j : Nat) (d : α) (h : j < xs.length) :
    readAt xs (j : Int) = some (xs.getD j d) := by
  rw [readAt_natCast, List.getElem?_eq_getElem h, List.getD_eq_getElem _ _ h]

theorem writeAt_of_lt {α : Type} (xs : List α) (j : Nat) (v : α) (h : j < xs.length) :
    writeAt xs (j : Int) v = some (xs.set j v) := by
  simp [writeAt, h]

theorem readAt_neg {α : Type} (xs : List α) (i : Int) (h : i < 0) : readAt xs i = none := by
  unfold readAt; rw [if_neg (by omega)]

theorem readAt_isSome_iff {α : Type} (xs : List α) (i : Int) :
    (readAt xs i).isSome ↔ 0 ≤ i ∧ i < xs.length := by
  unfold readAt
  by_cases h : 0 ≤ i
  · rw [if_pos h]
    constructor
    · intro hs
      refine ⟨h, ?_⟩
      by_contra hlt
      have hle : xs.length ≤ i.toNat := by omega
      rw [List.getElem?_eq_none hle] at hs
      simp at hs
    · rintro ⟨_, hlt⟩
      have hl : i.toNat < xs.length := by omega
      rw [List.getElem?_eq_getElem hl]; rfl
  · rw [if_neg h]
    constructor
    · intro hs; simp at hs
    · rintro ⟨h0, _⟩; exact absurd h0 h

theorem getD_set {α : Type} (xs : List α) (i j : Nat) (v d : α) :
    (xs.set i v).getD j d = if i = j ∧ i < xs.length then v else xs.getD j d := by
  simp only [List.getD_eq_getElem?_getD, List.getElem?_set]
  by_cases hij : i = j
  · by_cases hl : i < xs.length
    · subst hij
      simp [hl]
    · subst hij
      have hle : xs.length ≤ i := by omega
      simp [hl, List.getElem?_eq_none hle]
  · simp [hij]

theorem getD_set_self {α : Type} (xs : List α) (i : Nat) (v d : α) (h : i < xs.length) :
    (xs.set i v).getD i d = v := by
  rw [getD_set]; simp [h]

theorem getD_set_ne {α : Type} (xs : List α) (i j : Nat) (v d : α) (h : i ≠ j) :
    (xs.set i v).getD j d = xs.getD j d := by
  rw [getD_set]; simp [h]

/-- Two lists of the same length with the same elements are equal. -/
theorem ext_getD {α : Type} (xs ys : List α) (d : α) (hlen : xs.length = ys.length)
    (h : ∀ j, j < xs.length → xs.getD j d = ys.getD j d) : xs = ys := by
  apply List.ext_getElem hlen
  intro j h1 h2
  have := h j h1
  rwa [List.getD_eq_getElem _ _ h1, List.getD_eq_getElem _ _ h2] at this

/-! ### The inner loop of the worker -/

/-- One execution of the inner loop body at an index inside `X`, `Y` and an iteration
inside `local_Y_avgs`. -/
theorem inner_body_spec {α : Type} (A : DoubleOps α) (X : List α) (a : α) (t i : Nat)
    (m : WorkerMem α) (hX : i < X.length) (hY : i < m.Y.length)
    (hL : t < m.data.local_Y_avgs.length) :
    inner_body A X a (t : Int) (i : Int) m = some (inner_step A X a t i m) := by
  unfold inner_body
  rw [readAt_of_lt X i A.zero hX, readAt_of_lt m.Y i A.zero hY]
  simp only [Option.some_bind]
  rw [writeAt_of_lt _ _ _ hY]
  simp only [Option.some_bind]
  rw [readAt_of_lt _ i A.zero (by rw [List.length_set]; exact hY),
    readAt_of_lt _ t A.zero hL]
  simp only [Option.some_bind]
  rw [writeAt_of_lt _ _ _ hL, getD_set_self _ _ _ _ hY]
  rfl

theorem inner_loop_spec {α : Type} (A : DoubleOps α) (X : List α) (a : α) (t : Nat) :
    ∀ (k i : Nat) (m : WorkerMem α), i + k ≤ X.length → i + k ≤ m.Y.length →
      t < m.data.local_Y_avgs.length →
      ∃ m1, loopN (inner_body A X a (t : Int)) k (i : Int) m = some m1 ∧
        InnerPost A X a t i k m m1 := by
  intro k
  induction k with
  | zero =>
    intro i m _ _ _
    refine ⟨m, rfl, ?_⟩
    constructor
    · rfl
    · rfl
    · rfl
    · rfl
    · simp [inner_trace]
    · intro j
      rw [if_neg (by omega)]
    · intro s _; rfl
    · simp
  | succ k ih =>
    intro i m hX hY hL
    have hb := inner_body_spec A X a t i m (by omega) (by omega) hL
    obtain ⟨m1, hrun, post⟩ := ih (i + 1) (inner_step A X a t i m) (by omega)
      (by show i + 1 + k ≤ (m.Y.set i _).length; rw [List.length_set]; omega)
      (by show t < (m.data.local_Y_avgs.set t _).length; rw [List.length_set]; exact hL)
    refine ⟨m1, ?_, ?_⟩
    · simp only [loopN]
      rw [hb, Option.some_bind]
      have hc : ((i : Int) + 1) = ((i + 1 : Nat) : Int) := by push_cast; rfl
      rw [hc]; exact hrun
    · have hstep : ∀ j, i + 1 ≤ j →
          (m.Y.set i (saxpy_elem A a (X.getD i A.zero) (m.Y.getD i A.zero))).getD j A.zero =
            m.Y.getD j A.zero := by
        intro j hj
        exact getD_set_ne _ _ _ _ _ (by omega)
      constructor
      · rw [post.lenY]; exact List.length_set _ _ _
      · rw [post.lenL]; exact List.length_set _ _ _
      · rw [post.avg]; rfl
      · rw [post.id_eq]; rfl
      · rw [post.trace_eq]
        show (m.trace ++ body_trace (t : Int) (i : Int)) ++ inner_trace (i + 1) k t = _
        simp [inner_trace, List.range'_succ, List.append_assoc]
      · intro j
        rw [post.valY j]
        show (if i + 1 ≤ j ∧ j < i + 1 + k then
            saxpy_elem A a (X.getD j A.zero) ((m.Y.set i _).getD j A.zero)
          else (m.Y.set i _).getD j A.zero) = _
        by_cases h1 : i + 1 ≤ j ∧ j < i + 1 + k
        · rw [if_pos h1, if_pos (by omega), hstep j h1.1]
        · rw [if_neg h1]
          by_cases h2 : i = j
          · subst h2
            rw [if_pos (by omega)]
            exact getD_set_self _ _ _ _ (by omega)
          · rw [if_neg (by omega)]
            exact getD_set_ne _ _ _ _ _ h2
      · intro s hs
        rw [post.valL_ne s hs]
        exact getD_set_ne _ _ _ _ _ (Ne.symm hs)
      · rw [post.valL, List.range'_succ, List.foldl_cons]
        show List.foldl (fun acc j => A.add acc (saxpy_elem A a (X.getD j A.zero)
            ((m.Y.set i (saxpy_elem A a (X.getD i A.zero) (m.Y.getD i A.zero))).getD j A.zero)))
          ((m.data.local_Y_avgs.set t
            (A.add (m.data.local_Y_avgs.getD t A.zero)
              (saxpy_elem A a (X.getD i A.zero) (m.Y.getD i A.zero)))).getD t A.zero)
          (List.range' (i + 1) k) = _
        have h0 : (m.data.local_Y_avgs.set t
            (A.add (m.data.local_Y_avgs.getD t A.zero)
              (saxpy_elem A a (X.getD i A.zero) (m.Y.getD i A.zero)))).getD t A.zero =
            A.add (m.data.local_Y_avgs.getD t A.zero)
              (saxpy_elem A a (X.getD i A.zero) (m.Y.getD i A.zero)) :=
          getD_set_self _ _ _ _ hL
        simp only [h0]
        apply List.foldl_ext
        intro acc j hj
        rw [List.mem_range'_1] at hj
        rw [hstep j hj.1]

/-! ### The outer loop of the worker -/

theorem forLoop_natCast {σ : Type} (body : Int → σ → Option σ) (lo hi : Nat) (s : σ) :
    forLoop (lo : Int) (hi : Int) body s = loopN body (hi - lo) (lo : Int) s := by
  unfold forLoop
  have h : ((hi : Int) - (lo : Int)).toNat = hi - lo := by omega
  rw [h]

theorem forLoop_zero_natCast {σ : Type} (body : Int → σ → Option σ) (hi : Nat) (s : σ) :
    forLoop 0 (hi : Int) body s = loopN body hi ((0 : Nat) : Int) s := by
  have h := forLoop_natCast body 0 hi s
  simpa using h

theorem outer_loop_spec {α : Type} (A : DoubleOps α) (X : List α) (a : α) (lo hi : Nat)
    (hlh : lo ≤ hi) (hX : hi ≤ X.length) :
    ∀ (r t : Nat) (m : WorkerMem α), hi ≤ m.Y.length → t + r ≤ m.data.local_Y_avgs.length →
      ∃ m1, loopN (outer_body A X a (lo : Int) (hi : Int)) r (t : Int) m = some m1 ∧
        OuterPost A X a lo hi t r m m1 := by
  intro r
  induction r with
  | zero =>
    intro t m _ _
    refine ⟨m, rfl, ?_⟩
    constructor
    · rfl
    · rfl
    · rfl
    · simp
    · intro j
      split_ifs <;> rfl
    · intro s _; rfl
    · intro s h1 h2; omega
  | succ r ih =>
    intro t m hY hL
    obtain ⟨m2, hrun2, post2⟩ := inner_loop_spec A X a t (hi - lo) lo m (by omega) (by omega)
      (by omega)
    have hread : readAt m2.data.local_Y_avgs (t : Int) =
        some (m2.data.local_Y_avgs.getD t A.zero) :=
      readAt_of_lt _ _ _ (by rw [post2.lenL]; omega)
    obtain ⟨m1, hrun1, post1⟩ := ih (t + 1)
      { m2 with data := { m2.data with
                  Y_avg := A.add m2.data.Y_avg (m2.data.local_Y_avgs.getD t A.zero) },
                trace := m2.trace ++ [.readLocal (t : Int)] }
      (by show hi ≤ m2.Y.length; rw [post2.lenY]; exact hY)
      (by show t + 1 + r ≤ m2.data.local_Y_avgs.length; rw [post2.lenL]; omega)
    have hY2 : ∀ j, lo ≤ j → j < hi → m2.Y.getD j A.zero =
        saxpy_elem A a (X.getD j A.zero) (m.Y.getD j A.zero) := by
      intro j h1 h2
      rw [post2.valY j, if_pos (by omega)]
    refine ⟨m1, ?_, ?_⟩
    · simp only [loopN]
      unfold outer_body
      rw [forLoop_natCast, hrun2, Option.some_bind, hread, Option.some_bind, Option.some_bind]
      have hc : ((t : Int) + 1) = ((t + 1 : Nat) : Int) := by push_cast; rfl
      rw [hc]; exact hrun1
    · constructor
      · rw [post1.lenY]; exact post2.lenY
      · rw [post1.lenL]; exact post2.lenL
      · rw [post1.id_eq]; exact post2.id_eq
      · rw [post1.trace_eq]
        show (m2.trace ++ [Access.readLocal (t : Int)]) ++ _ = _
        rw [post2.trace_eq, List.range'_succ, List.map_cons, List.flatten_cons]
        simp [iter_trace, List.append_assoc]
      · intro j
        rw [post1.valY j]
        show (if lo ≤ j ∧ j < hi then (saxpy_elem A a (X.getD j A.zero))^[r] (m2.Y.getD j A.zero)
          else m2.Y.getD j A.zero) = _
        by_cases h : lo ≤ j ∧ j < hi
        · rw [if_pos h, if_pos h, hY2 j h.1 h.2, Function.iterate_succ_apply]
        · rw [if_neg h, if_neg h, post2.valY j, if_neg (by omega)]
      · intro s hs
        rw [post1.valL_out s (by omega)]
        exact post2.valL_ne s (by omega)
      · intro s h1 h2
        by_cases hst : s = t
        · subst hst
          rw [post1.valL_out s (by omega)]
          show m2.data.local_Y_avgs.getD s A.zero = _
          rw [post2.valL]
          have h11 : s - s + 1 = 1 := by omega
          rw [h11]
          rfl
        · rw [post1.valL s (by omega) (by omega)]
          show List.foldl (fun acc j => A.add acc
              ((saxpy_elem A a (X.getD j A.zero))^[s - (t + 1) + 1] (m2.Y.getD j A.zero)))
            (m2.data.local_Y_avgs.getD s A.zero) (List.range' lo (hi - lo)) = _
          rw [post2.valL_ne s hst]
          apply List.foldl_ext
          intro acc j hj
          rw [List.mem_range'_1] at hj
          rw [hY2 j hj.1 (by omega), ← Function.iterate_succ_apply]
          have h12 : (s - (t + 1) + 1).succ = s - t + 1 := by omega
          rw [h12]

/-- Every access of one iteration of a worker lies in its range of the vectors and in
its buffer. -/
theorem iter_trace_within (lo k t : Nat) (M : Int) (ht : (t : Int) < M) :
    ∀ x, x ∈ iter_trace lo k t → Access.within (lo : Int) ((lo + k : Nat) : Int) M x := by
  intro x hx
  unfold iter_trace inner_trace at hx
  rw [List.mem_append, List.mem_flatten] at hx
  rcases hx with ⟨l, hl, hxl⟩ | hx
  · rw [List.mem_map] at hl
    obtain ⟨j, hj, rfl⟩ := hl
    rw [List.mem_range'_1] at hj
    unfold body_trace at hxl
    simp only [List.mem_cons, List.mem_singleton, List.not_mem_nil, or_false] at hxl
    rcases hxl with h | h | h | h | h | h <;> subst h <;> unfold Access.within <;>
      constructor <;> push_cast <;> omega
  · rw [List.mem_singleton] at hx
    subst hx
    unfold Access.within
    constructor <;> omega

/-- Every access of a run of the outer loop lies in the worker's range of the vectors and
in its buffer. -/
theorem outer_trace_within (lo k t r : Nat) (M : Int) (ht : ((t + r : Nat) : Int) ≤ M) :
    ∀ x, x ∈ ((List.range' t r).map (iter_trace lo k)).flatten →
      Access.within (lo : Int) ((lo + k : Nat) : Int) M x := by
  intro x hx
  rw [List.mem_flatten] at hx
  obtain ⟨l, hl, hxl⟩ := hx
  rw [List.mem_map] at hl
  obtain ⟨s, hs, rfl⟩ := hl
  rw [List.mem_range'_1] at hs
  exact iter_trace_within lo k s M (by push_cast at ht ⊢; omega) x hxl

/-- Widening the range of the vectors keeps an access within. -/
theorem within_mono (lo hi lo' hi' M : Int) (h1 : lo' ≤ lo) (h2 : hi ≤ hi') (x : Access)
    (h : Access.within lo hi M x) : Access.within lo' hi' M x := by
  cases x <;> unfold Access.within at h ⊢ <;> constructor <;> omega

/-! ### The whole worker -/

theorem lo_of_cast (p n : Int) (k : Nat) (hp : 0 ≤ p) (hn : 1 ≤ n) :
    ((lo_of p n k : Nat) : Int) = start p n (k : Int) := by
  have := start_nonneg p n (k : Int) hp hn (by omega)
  unfold lo_of; omega

theorem hi_of_cast (p n : Int) (k : Nat) (hp : 0 ≤ p) (hn : 1 ≤ n) :
    ((hi_of p n k : Nat) : Int) = end_ p n (k : Int) := by
  have h1 := start_nonneg p n (k : Int) hp hn (by omega)
  have h2 := start_le_end p n (k : Int) hp (by omega)
  unfold hi_of; omega

theorem lo_le_hi (p n : Int) (k : Nat) (hp : 0 ≤ p) (hn : 1 ≤ n) : lo_of p n k ≤ hi_of p n k := by
  have h1 := lo_of_cast p n k hp hn
  have h2 := hi_of_cast p n k hp hn
  have h3 := start_le_end p n (k : Int) hp (by omega)
  omega

theorem hi_le_p (p n : Int) (k : Nat) (hp : 0 ≤ p) (hn : 1 ≤ n) (hk : (k : Int) < n) :
    hi_of p n k ≤ p.toNat := by
  have h2 := hi_of_cast p n k hp hn
  have h3 := end_le_p p n (k : Int) hp hn hk
  omega

/-- A run of `saxpy_parallel` for a worker `k < n_threads` on vectors of `p` elements and
a buffer of `max_iters` elements returns, in the state `OuterPost` describes. -/
theorem saxpy_parallel_spec {α : Type} (A : DoubleOps α) (X : List α) (a : α) (p n : Int)
    (M k : Nat) (m : WorkerMem α) (hp : 0 ≤ p) (hn : 1 ≤ n) (hk : (k : Int) < n)
    (hid : m.data.id = (k : Int)) (hX : p.toNat ≤ X.length) (hY : p.toNat ≤ m.Y.length)
    (hL : M ≤ m.data.local_Y_avgs.length) :
    ∃ m1, saxpy_parallel A X a p n (M : Int) m = some m1 ∧
      OuterPost A X a (lo_of p n k) (hi_of p n k) 0 M m m1 := by
  have hhi := hi_le_p p n k hp hn hk
  obtain ⟨m1, hrun, post⟩ := outer_loop_spec A X a (lo_of p n k) (hi_of p n k)
    (lo_le_hi p n k hp hn) (by omega) M 0 m (by omega) (by omega)
  refine ⟨m1, ?_, post⟩
  unfold saxpy_parallel
  rw [if_neg (by omega), hid, ← lo_of_cast p n k hp hn, ← hi_of_cast p n k hp hn,
    forLoop_zero_natCast]
  exact hrun

/-! ### Slices and sums -/

theorem slice_eq_map {α : Type} (xs : List α) (d : α) (lo hi : Nat) (h1 : lo ≤ hi)
    (h2 : hi ≤ xs.length) :
    slice xs (lo : Int) (hi : Int) = (List.range' lo (hi - lo)).map (fun j => xs.getD j d) := by
  unfold slice
  have e1 : ((lo : Int)).toNat = lo := by omega
  have e2 : ((hi : Int) - (lo : Int)).toNat = hi - lo := by omega
  rw [e1, e2]
  apply List.ext_getElem
  · simp; omega
  · intro i hi1 hi2
    simp only [List.length_take, List.length_drop] at hi1
    rw [List.getElem_take, List.getElem_drop, List.getElem_map, List.getElem_range',
      List.getD_eq_getElem _ _ (by omega)]
    simp

theorem Y_after_length {α : Type} (A : DoubleOps α) (a : α) (X Y : List α) (k : Nat)
    (h : X.length = Y.length) : (Y_after A a X Y k).length = Y.length := by
  unfold Y_after; rw [List.length_zipWith, h]; simp

theorem Y_after_getD {α : Type} (A : DoubleOps α) (a : α) (X Y : List α) (k j : Nat)
    (h : X.length = Y.length) (hj : j < Y.length) :
    (Y_after A a X Y k).getD j A.zero =
      (saxpy_elem A a (X.getD j A.zero))^[k] (Y.getD j A.zero) := by
  have hl := Y_after_length A a X Y k h
  rw [List.getD_eq_getElem _ _ (by omega), List.getD_eq_getElem _ _ (by omega),
    List.getD_eq_getElem _ _ hj]
  unfold Y_after
  rw [List.getElem_zipWith]

/-- The partial sum of worker `k` for iteration `s`, as a sum over the indices of its
range. -/
theorem chunk_sum_eq {α : Type} (A : DoubleOps α) (a : α) (X Y : List α) (p n : Int) (s k : Nat)
    (hp : 0 ≤ p) (hn : 1 ≤ n) (hk : (k : Int) < n) (hXY : X.length = Y.length)
    (hY : Y.length = p.toNat) :
    chunk_sum A a X Y p n s k =
      (List.range' (lo_of p n k) (hi_of p n k - lo_of p n k)).foldl
        (fun acc j => A.add acc ((saxpy_elem A a (X.getD j A.zero))^[s + 1] (Y.getD j A.zero)))
        A.zero := by
  have hhi := hi_le_p p n k hp hn hk
  have hlh := lo_le_hi p n k hp hn
  unfold chunk_sum sum_left
  rw [← lo_of_cast p n k hp hn, ← hi_of_cast p n k hp hn,
    slice_eq_map _ A.zero _ _ hlh (by rw [Y_after_length A a X Y _ hXY]; omega),
    List.foldl_map]
  apply List.foldl_ext
  intro acc j hj
  rw [List.mem_range'_1] at hj
  rw [Y_after_getD A a X Y _ j hXY (by omega)]

/-! ### The parallel phase -/

/-- The ranges of two workers that share an index are the same worker's. -/
theorem owns_unique (p n : Int) (k k' j : Nat) (hp : 0 ≤ p) (hn : 1 ≤ n)
    (h : owns p n k j) (h' : owns p n k' j) : k = k' := by
  unfold owns at h h'
  have c1 := lo_of_cast p n k hp hn
  have c2 := hi_of_cast p n k hp hn
  have c3 := lo_of_cast p n k' hp hn
  have c4 := hi_of_cast p n k' hp hn
  rcases Nat.lt_trichotomy k k' with hlt | heq | hgt
  · exfalso
    exact ranges_disjoint p n (k : Int) (k' : Int) (j : Int) hp (by omega) (by omega)
      (by omega) (by omega)
  · exact heq
  · exfalso
    exact ranges_disjoint p n (k' : Int) (k : Int) (j : Int) hp (by omega) (by omega)
      (by omega) (by omega)

/-- Every index below `p` is owned by some worker. -/
theorem exists_owner (p n : Int) (j : Nat) (hp : 0 < p) (hn : 1 ≤ n) (hj : j < p.toNat) :
    ∃ k, k < n.toNat ∧ owns p n k j := by
  obtain ⟨id, h0, h1, h2, h3⟩ := exists_worker p n (j : Int) hp hn (by omega) (by omega)
  refine ⟨id.toNat, by omega, ?_⟩
  have e : ((id.toNat : Nat) : Int) = id := by omega
  have c1 := lo_of_cast p n id.toNat hp.le hn
  have c2 := hi_of_cast p n id.toNat hp.le hn
  rw [e] at c1 c2
  unfold owns
  omega

theorem init_thread_data_get {α : Type} (A : DoubleOps α) (n : Int) (M k : Nat)
    (hk : k < n.toNat) :
    (init_thread_data A n (M : Int))[k]? =
      some { local_Y_avgs := List.replicate M A.zero, Y_avg := A.zero, id := (k : Int) } := by
  unfold init_thread_data
  rw [List.getElem?_map, List.getElem?_range hk]
  simp

/-- The invariant holds when the threads are created. -/
theorem threadsInv_init {α : Type} (A : DoubleOps α) (X Y : List α) (a : α) (p n : Int) (M : Nat) :
    ThreadsInv A X Y a p n M [] (init_globals A X Y a p n (M : Int)) := by
  constructor
  · rfl
  · rfl
  · rfl
  · rfl
  · rfl
  · simp [init_globals]
  · rfl
  · simp [init_globals, init_thread_data]
  · intro k hk
    refine ⟨_, init_thread_data_get A n M k hk, rfl, by simp, ?_, ?_⟩
    · intro h; simp at h
    · intro _ s hs
      rw [List.getD_eq_getElem _ _ (by simpa using hs)]
      simp
  · intro j k h; simp at h
  · intro j _; rfl
  · intro x h; simp [init_globals] at h

/-- One worker run to completion keeps the invariant and adds the worker to `done`. -/
theorem run_thread_spec {α : Type} (A : DoubleOps α) (X Y : List α) (a : α) (p n : Int) (M : Nat)
    (hp : 0 ≤ p) (hn : 1 ≤ n) (hXY : X.length = Y.length) (hY : Y.length = p.toNat)
    (done : List Nat) (g : Globals α) (k : Nat) (inv : ThreadsInv A X Y a p n M done g)
    (hk : k < n.toNat) (hnew : k ∉ done) :
    ∃ g1, run_thread A k g = some g1 ∧ ThreadsInv A X Y a p n M (k :: done) g1 := by
  obtain ⟨d, hd, hid, hlen, _, hzero⟩ := inv.td k hk
  have hkn : (k : Int) < n := by omega
  obtain ⟨m1, hrun, post⟩ := saxpy_parallel_spec A X a p n M k
    { Y := g.Y, data := d, trace := g.trace } hp hn hkn hid (by omega)
    (by show p.toNat ≤ g.Y.length; rw [inv.lenY]; omega)
    (by show M ≤ d.local_Y_avgs.length; omega)
  have hhi := hi_le_p p n k hp hn hkn
  have hlh := lo_le_hi p n k hp hn
  have horig : ∀ j, owns p n k j → g.Y.getD j A.zero = Y.getD j A.zero := by
    intro j hj
    apply inv.valY_rest
    intro k' hk' hown
    have := owns_unique p n k k' j hp hn hj hown
    subst this
    exact hnew hk'
  refine ⟨{ g with Y := m1.Y, thread_data := g.thread_data.set k m1.data, trace := m1.trace },
    ?_, ?_⟩
  · unfold run_thread
    rw [hd, Option.some_bind, inv.hX, inv.ha, inv.hp, inv.hn, inv.hm, hrun, Option.some_bind]
  · constructor
    · exact inv.hX
    · exact inv.ha
    · exact inv.hp
    · exact inv.hn
    · exact inv.hm
    · exact inv.havgs
    · show m1.Y.length = Y.length
      rw [post.lenY]; exact inv.lenY
    · show (g.thread_data.set k m1.data).length = n.toNat
      rw [List.length_set]; exact inv.lenTD
    · intro k' hk'
      show ∃ d', (g.thread_data.set k m1.data)[k']? = some d' ∧ _
      by_cases hkk : k' = k
      · subst hkk
        refine ⟨m1.data, ?_, ?_, ?_, ?_, ?_⟩
        · rw [List.getElem?_set_self (by rw [inv.lenTD]; exact hk)]
        · rw [post.id_eq]; exact hid
        · rw [post.lenL]; exact hlen
        · intro _ s hs
          rw [post.valL s (by omega) (by omega),
            chunk_sum_eq A a X Y p n s k' hp hn hkn hXY hY]
          show List.foldl _ (d.local_Y_avgs.getD s A.zero) _ = _
          rw [hzero hnew s hs]
          apply List.foldl_ext
          intro acc j hj
          rw [List.mem_range'_1] at hj
          have hown : owns p n k' j := ⟨hj.1, by omega⟩
          show A.add acc ((saxpy_elem A a (X.getD j A.zero))^[s - 0 + 1] (g.Y.getD j A.zero)) = _
          rw [horig j hown]
          rfl
        · intro h; simp at h
      · obtain ⟨d', hd', hid', hlen', hdone', hzero'⟩ := inv.td k' hk'
        refine ⟨d', ?_, hid', hlen', ?_, ?_⟩
        · rw [List.getElem?_set_ne (Ne.symm hkk)]; exact hd'
        · intro hmem
          exact hdone' (by simpa [hkk] using hmem)
        · intro hmem
          exact hzero' (by intro h; exact hmem (List.mem_cons_of_mem _ h))
    · intro j k' hk' hown
      show m1.Y.getD j A.zero = _
      rw [post.valY j]
      by_cases hkk : k' = k
      · subst hkk
        rw [if_pos (show lo_of p n k' ≤ j ∧ j < hi_of p n k' from hown)]
        show (saxpy_elem A a (X.getD j A.zero))^[M] (g.Y.getD j A.zero) = _
        rw [horig j hown]
      · have hnot : ¬ (lo_of p n k ≤ j ∧ j < hi_of p n k) := by
          intro h
          exact hkk (owns_unique p n k' k j hp hn hown h)
        rw [if_neg hnot]
        exact inv.valY_done j k' (by simpa [hkk] using hk') hown
    · intro j hj
      show m1.Y.getD j A.zero = _
      rw [post.valY j, if_neg (show ¬ (lo_of p n k ≤ j ∧ j < hi_of p n k) from
        hj k (List.mem_cons_self _ _))]
      exact inv.valY_rest j (fun k' hk' => hj k' (List.mem_cons_of_mem _ hk'))
    · intro x hx
      show Access.within 0 p (M : Int) x
      have hx' : x ∈ m1.trace := hx
      rw [post.trace_eq, List.mem_append] at hx'
      rcases hx' with h | h
      · exact inv.trace x h
      · have hw := outer_trace_within (lo_of p n k) (hi_of p n k - lo_of p n k) 0 M (M : Int)
          (by push_cast; omega) x h
        exact within_mono _ _ 0 p _ (by omega) (by omega) x hw

/-- The parallel phase keeps the invariant, whatever the order in which distinct
workers complete. -/
theorem run_threads_spec {α : Type} (A : DoubleOps α) (X Y : List α) (a : α) (p n : Int) (M : Nat)
    (hp : 0 ≤ p) (hn : 1 ≤ n) (hXY : X.length = Y.length) (hY : Y.length = p.toNat) :
    ∀ (order done : List Nat) (g : Globals α), ThreadsInv A X Y a p n M done g →
      order.Nodup → (∀ k, k ∈ order → k < n.toNat ∧ k ∉ done) →
      ∃ g1, run_threads A order g = some g1 ∧
        ThreadsInv A X Y a p n M (order.reverse ++ done) g1 := by
  intro order
  induction order with
  | nil =>
    intro done g inv _ _
    exact ⟨g, rfl, by simpa using inv⟩
  | cons k ks ih =>
    intro done g inv hnd hmem
    rw [List.nodup_cons] at hnd
    obtain ⟨hk, hknew⟩ := hmem k (List.mem_cons_self _ _)
    obtain ⟨g1, hrun1, inv1⟩ := run_thread_spec A X Y a p n M hp hn hXY hY done g k inv hk hknew
    obtain ⟨g2, hrun2, inv2⟩ := ih (k :: done) g1 inv1 hnd.2 (by
      intro k' hk'
      obtain ⟨h1, h2⟩ := hmem k' (List.mem_cons_of_mem _ hk')
      refine ⟨h1, ?_⟩
      intro h
      rcases List.mem_cons.mp h with h | h
      · subst h; exact hnd.1 hk'
      · exact h2 h)
    refine ⟨g2, ?_, ?_⟩
    · simp only [run_threads]
      rw [hrun1, Option.some_bind]; exact hrun2
    · have e : (k :: ks).reverse ++ done = ks.reverse ++ (k :: done) := by simp
      rw [e]; exact inv2

/-! ### The reduction loop -/

theorem reduce_inner_spec {α : Type} (A : DoubleOps α) (td : List (thread_data_t α))
    (n M t : Nat) (htd : buffers_ok td n M) (ht : t < M) :
    ∀ (k i : Nat) (avgs : List α), i + k ≤ n → t < avgs.length →
      ∃ avgs1, loopN (reduce_inner A td (t : Int)) k (i : Int) avgs = some avgs1 ∧
        avgs1.length = avgs.length ∧
        (∀ s, s ≠ t → avgs1.getD s A.zero = avgs.getD s A.zero) ∧
        avgs1.getD t A.zero =
          (List.range' i k).foldl (fun acc w => A.add acc (local_val A td w t))
            (avgs.getD t A.zero) := by
  intro k
  induction k with
  | zero =>
    intro i avgs _ _
    exact ⟨avgs, rfl, rfl, fun _ _ => rfl, rfl⟩
  | succ k ih =>
    intro i avgs hi hlen
    obtain ⟨d, hd, hdl⟩ := htd i (by omega)
    have hbody : reduce_inner A td (t : Int) (i : Int) avgs =
        some (avgs.set t (A.add (avgs.getD t A.zero) (local_val A td i t))) := by
      unfold reduce_inner
      rw [readAt_natCast, hd, Option.some_bind, readAt_of_lt _ t A.zero (by omega),
        Option.some_bind, readAt_of_lt _ t A.zero hlen, Option.some_bind,
        writeAt_of_lt _ _ _ hlen]
      unfold local_val
      rw [hd]
      rfl
    obtain ⟨avgs1, hrun, h1, h2, h3⟩ := ih (i + 1)
      (avgs.set t (A.add (avgs.getD t A.zero) (local_val A td i t))) (by omega)
      (by rw [List.length_set]; exact hlen)
    refine ⟨avgs1, ?_, ?_, ?_, ?_⟩
    · simp only [loopN]
      rw [hbody, Option.some_bind]
      have hc : ((i : Int) + 1) = ((i + 1 : Nat) : Int) := by push_cast; rfl
      rw [hc]; exact hrun
    · rw [h1, List.length_set]
    · intro s hs
      rw [h2 s hs, getD_set_ne _ _ _ _ _ (Ne.symm hs)]
    · rw [h3, getD_set_self _ _ _ _ hlen, List.range'_succ, List.foldl_cons]

theorem reduce_outer_spec {α : Type} (A : DoubleOps α) (td : List (thread_data_t α))
    (p : Int) (n M : Nat) (htd : buffers_ok td n M) :
    ∀ (r t : Nat) (avgs : List α), t + r ≤ M → M ≤ avgs.length →
      ∃ avgs1, loopN (reduce_outer A td p (n : Int)) r (t : Int) avgs = some avgs1 ∧
        avgs1.length = avgs.length ∧
        (∀ s, (s < t ∨ t + r ≤ s) → avgs1.getD s A.zero = avgs.getD s A.zero) ∧
        (∀ s, t ≤ s → s < t + r → avgs1.getD s A.zero =
          A.div ((List.range' 0 n).foldl (fun acc w => A.add acc (local_val A td w s))
            (avgs.getD s A.zero)) (A.ofInt p)) := by
  intro r
  induction r with
  | zero =>
    intro t avgs _ _
    exact ⟨avgs, rfl, rfl, fun _ _ => rfl, fun s h1 h2 => by omega⟩
  | succ r ih =>
    intro t avgs ht hlen
    obtain ⟨avgs2, hrun2, l2, o2, v2⟩ := reduce_inner_spec A td n M t htd (by omega) n 0 avgs
      (by omega) (by omega)
    have hbody : reduce_outer A td p (n : Int) (t : Int) avgs =
        some (avgs2.set t (A.div (avgs2.getD t A.zero) (A.ofInt p))) := by
      unfold reduce_outer
      rw [forLoop_zero_natCast, hrun2, Option.some_bind,
        readAt_of_lt _ t A.zero (by omega), Option.some_bind,
        writeAt_of_lt _ _ _ (by omega)]
    obtain ⟨avgs1, hrun1, l1, o1, v1⟩ := ih (t + 1)
      (avgs2.set t (A.div (avgs2.getD t A.zero) (A.ofInt p))) (by omega)
      (by rw [List.length_set]; omega)
    refine ⟨avgs1, ?_, ?_, ?_, ?_⟩
    · simp only [loopN]
      rw [hbody, Option.some_bind]
      have hc : ((t : Int) + 1) = ((t + 1 : Nat) : Int) := by push_cast; rfl
      rw [hc]; exact hrun1
    · rw [l1, List.length_set, l2]
    · intro s hs
      rw [o1 s (by omega), getD_set_ne _ _ _ _ _ (by omega), o2 s (by omega)]
    · intro s h1 h2
      by_cases hst : s = t
      · subst hst
        rw [o1 s (by omega), getD_set_self _ _ _ _ (by omega), v2]
      · rw [v1 s (by omega) (by omega), getD_set_ne _ _ _ _ _ (Ne.symm hst), o2 s hst]

/-! ### The parallel phase followed by the reduction -/

/-- After all the workers have completed, in any order, `Y` holds every element updated
`max_iters` times and each buffer holds the partial sums of its worker. -/
theorem run_threads_all {α : Type} (A : DoubleOps α) (X Y : List α) (a : α) (p n : Int) (M : Nat)
    (order : List Nat) (hp : 0 < p) (hn : 1 ≤ n) (hX : X.length = p.toNat)
    (hY : Y.length = p.toNat) (hord : order.Perm (List.range n.toNat)) :
    ∃ g, run_threads A order (init_globals A X Y a p n (M : Int)) = some g ∧
      ThreadsInv A X Y a p n M (order.reverse ++ []) g ∧
      g.Y = Y_after A a X Y M ∧
      (∀ w s, w < n.toNat → s < M → local_val A g.thread_data w s = chunk_sum A a X Y p n s w) ∧
      buffers_ok g.thread_data n.toNat M := by
  have hXY : X.length = Y.length := by omega
  have hnd : order.Nodup := (List.Perm.nodup_iff hord).mpr (List.nodup_range _)
  have hmem : ∀ k, k ∈ order ↔ k < n.toNat := by
    intro k; rw [List.Perm.mem_iff hord, List.mem_range]
  obtain ⟨g, hrun, inv⟩ := run_threads_spec A X Y a p n M hp.le hn hXY hY order [] _
    (threadsInv_init A X Y a p n M) hnd
    (fun k hk => ⟨(hmem k).mp hk, by simp⟩)
  have hdone : ∀ k, k < n.toNat → k ∈ order.reverse ++ [] := by
    intro k hk; simp [hmem k, hk]
  refine ⟨g, hrun, inv, ?_, ?_, ?_⟩
  · apply ext_getD _ _ A.zero
    · rw [inv.lenY, Y_after_length A a X Y M hXY]
    · intro j hj
      rw [inv.lenY] at hj
      obtain ⟨k, hk, hown⟩ := exists_owner p n j hp hn (by omega)
      rw [inv.valY_done j k (hdone k hk) hown, Y_after_getD A a X Y M j hXY hj]
  · intro w s hw hs
    obtain ⟨d, hd, _, _, hval, _⟩ := inv.td w hw
    unfold local_val
    rw [hd]
    exact hval (hdone w hw) s hs
  · intro w hw
    obtain ⟨d, hd, _, hlen, _, _⟩ := inv.td w hw
    exact ⟨d, hd, by omega⟩

/-- The timed part of `main` returns: `Y` holds every element updated `max_iters` times
and `Y_avgs[it]` holds the sum over the workers of their partial sums, divided by `p`. -/
theorem compute_spec {α : Type} (A : DoubleOps α) (X Y : List α) (a : α) (p n : Int) (M : Nat)
    (order : List Nat) (hp : 0 < p) (hn : 1 ≤ n) (hX : X.length = p.toNat)
    (hY : Y.length = p.toNat) (hord : order.Perm (List.range n.toNat)) :
    ∃ g, compute A order (init_globals A X Y a p n (M : Int)) = some g ∧
      g.Y = Y_after A a X Y M ∧
      g.Y_avgs = (List.range M).map (mean_chunked A a X Y p n) ∧
      g.X = X ∧ g.a = a ∧ (∀ x, x ∈ g.trace → Access.within 0 p (M : Int) x) := by
  obtain ⟨g, hrun, inv, hYfin, hloc, hbuf⟩ :=
    run_threads_all A X Y a p n M order hp hn hX hY hord
  have hnn : ((n.toNat : Nat) : Int) = n := by omega
  obtain ⟨avgs, hred, hlen, _, hval⟩ := reduce_outer_spec A g.thread_data p n.toNat M hbuf
    M 0 (List.replicate M A.zero) (by omega) (by simp)
  refine ⟨{ g with Y_avgs := avgs }, ?_, hYfin, ?_, inv.hX, inv.ha, inv.trace⟩
  · unfold compute
    rw [hrun, Option.some_bind]
    unfold reduce
    rw [inv.hm, inv.hp, inv.hn, inv.havgs, forLoop_zero_natCast]
    rw [hnn] at hred
    rw [hred, Option.some_bind]
  · show avgs = _
    apply ext_getD _ _ A.zero
    · rw [hlen]; simp
    · intro s hs
      rw [hlen, List.length_replicate] at hs
      have hs1 : s < (List.replicate M A.zero).length := by simpa using hs
      have hs2 : s < (List.map (mean_chunked A a X Y p n) (List.range M)).length := by
        simpa using hs
      rw [hval s (by omega) (by omega), List.getD_eq_getElem _ _ hs1,
        List.getD_eq_getElem _ _ hs2, List.getElem_map, List.getElem_range,
        List.getElem_replicate]
      unfold mean_chunked sum_left
      rw [List.foldl_map, ← List.range_eq_range']
      congr 1
      apply List.foldl_ext
      intro acc w hw
      rw [List.mem_range] at hw
      rw [hloc w s hw hs]

/-! ### Sums when addition is exact -/

/-- The laws of an addition that never rounds: associativity and `0.0` neutral. -/
theorem foldl_add_eq {α : Type} (A : DoubleOps α)
    (hassoc : ∀ x y z, A.add (A.add x y) z = A.add x (A.add y z))
    (hzl : ∀ x, A.add A.zero x = x) (hzr : ∀ x, A.add x A.zero = x) :
    ∀ (l : List α) (s : α), l.foldl A.add s = A.add s (l.foldl A.add A.zero) := by
  intro l
  induction l with
  | nil => intro s; exact (hzr s).symm
  | cons x xs ih =>
    intro s
    rw [List.foldl_cons, List.foldl_cons, ih (A.add s x), ih (A.add A.zero x), hzl, hassoc]

theorem sum_left_append {α : Type} (A : DoubleOps α)
    (hassoc : ∀ x y z, A.add (A.add x y) z = A.add x (A.add y z))
    (hzl : ∀ x, A.add A.zero x = x) (hzr : ∀ x, A.add x A.zero = x) (l1 l2 : List α) :
    sum_left A (l1 ++ l2) = A.add (sum_left A l1) (sum_left A l2) := by
  unfold sum_left
  rw [List.foldl_append, foldl_add_eq A hassoc hzl hzr l2]

theorem take_append_slice {α : Type} (xs : List α) (lo hi : Nat) (h : lo ≤ hi) :
    xs.take lo ++ slice xs (lo : Int) (hi : Int) = xs.take hi := by
  unfold slice
  have e1 : ((lo : Int)).toNat = lo := by omega
  have e2 : ((hi : Int) - (lo : Int)).toNat = hi - lo := by omega
  rw [e1, e2, ← List.take_add]
  congr 1
  omega

/-- With an exact addition, the partial sums of the first `K` workers add up to the sum
of the elements before the range of worker `K`. -/
theorem sum_chunks_upto {α : Type} (A : DoubleOps α) (a : α) (X Y : List α) (p n : Int) (it : Nat)
    (hp : 0 ≤ p) (hn : 1 ≤ n)
    (hassoc : ∀ x y z, A.add (A.add x y) z = A.add x (A.add y z))
    (hzl : ∀ x, A.add A.zero x = x) (hzr : ∀ x, A.add x A.zero = x) :
    ∀ K : Nat, sum_left A ((List.range K).map (chunk_sum A a X Y p n it)) =
      sum_left A ((Y_after A a X Y (it + 1)).take (lo_of p n K)) := by
  intro K
  induction K with
  | zero =>
    have h0 : lo_of p n 0 = 0 := by
      have := start_zero p n hp hn
      unfold lo_of; simp [this]
    rw [h0]; rfl
  | succ K ih =>
    have hnext : lo_of p n (K + 1) = hi_of p n K := by
      unfold lo_of hi_of
      rw [end_eq_start_succ]
      push_cast; rfl
    rw [List.range_succ, List.map_append, sum_left_append A hassoc hzl hzr, ih, hnext,
      ← take_append_slice _ _ _ (lo_le_hi p n K hp hn), sum_left_append A hassoc hzl hzr]
    congr 1
    unfold sum_left chunk_sum sum_left
    rw [List.map_cons, List.map_nil, List.foldl_cons, List.foldl_nil, hzl,
      lo_of_cast p n K hp hn, hi_of_cast p n K hp hn]

/-- With an exact addition the mean the program computes is the sequential mean. -/
theorem mean_chunked_eq_mean_seq {α : Type} (A : DoubleOps α) (a : α) (X Y : List α) (p n : Int)
    (it : Nat) (hp : 0 ≤ p) (hn : 1 ≤ n) (hX : X.length = p.toNat) (hY : Y.length = p.toNat)
    (hassoc : ∀ x y z, A.add (A.add x y) z = A.add x (A.add y z))
    (hzl : ∀ x, A.add A.zero x = x) (hzr : ∀ x, A.add x A.zero = x) :
    mean_chunked A a X Y p n it = mean_seq A p (Y_after A a X Y (it + 1)) := by
  unfold mean_chunked mean_seq
  rw [sum_chunks_upto A a X Y p n it hp hn hassoc hzl hzr n.toNat]
  have hlo : lo_of p n n.toNat = p.toNat := by
    unfold lo_of
    have e : ((n.toNat : Nat) : Int) = n := by omega
    rw [e, start_n p n hp hn]
  have hlen := Y_after_length A a X Y (it + 1) (by omega)
  rw [hlo, List.take_of_length_le (by omega)]

/-! ### Rounding to binary64 -/

theorem two_zpow_pos (e : Int) : (0 : ℚ) < (2 : ℚ) ^ e := zpow_pos (by norm_num) e

theorem bitLenAux_spec : ∀ (fuel n : Nat), n ≤ fuel →
    n < 2 ^ bitLenAux fuel n ∧ (n ≠ 0 → 2 ^ (bitLenAux fuel n - 1) ≤ n) := by
  intro fuel
  induction fuel with
  | zero =>
    intro n hn
    have : n = 0 := by omega
    subst this
    simp [bitLenAux]
  | succ fuel ih =>
    intro n hn
    by_cases h0 : n = 0
    · subst h0; simp [bitLenAux]
    · have hhalf : n / 2 ≤ fuel := by omega
      obtain ⟨hlt, hge⟩ := ih (n / 2) hhalf
      simp only [bitLenAux, if_neg h0, Nat.add_sub_cancel]
      constructor
      · rw [pow_succ]; omega
      · intro _
        by_cases h1 : n / 2 = 0
        · have hz : bitLenAux fuel (n / 2) = 0 := by
            rw [h1]; cases fuel <;> simp [bitLenAux]
          rw [hz]; simp; omega
        · have hge' := hge h1
          have hpos : 1 ≤ bitLenAux fuel (n / 2) := by
            by_contra hc
            have hz : bitLenAux fuel (n / 2) = 0 := by omega
            rw [hz] at hlt
            simp at hlt
            exact h1 hlt
          have e : bitLenAux fuel (n / 2) = (bitLenAux fuel (n / 2) - 1) + 1 := by omega
          rw [e, pow_succ]; omega

/-- A positive number has `bitLen` binary digits. -/
theorem bitLen_spec (n : Nat) (h : n ≠ 0) :
    1 ≤ bitLen n ∧ 2 ^ (bitLen n - 1) ≤ n ∧ n < 2 ^ bitLen n := by
  obtain ⟨hlt, hge⟩ := bitLenAux_spec n n (le_refl n)
  refine ⟨?_, hge h, hlt⟩
  by_contra hc
  have hz : bitLen n = 0 := by omega
  unfold bitLen at hz
  rw [hz] at hlt
  simp at hlt
  exact h hlt

/-- The binary exponent brackets a positive rational. -/
theorem ilog2_spec (q : ℚ) (hq : 0 < q) :
    (2 : ℚ) ^ ilog2 q ≤ q ∧ q < (2 : ℚ) ^ (ilog2 q + 1) := by
  have hnum : 0 < q.num := Rat.num_pos.mpr hq
  have hn0 : q.num.toNat ≠ 0 := by omega
  have hd0 : q.den ≠ 0 := q.den_nz
  obtain ⟨ha1, ha2, ha3⟩ := bitLen_spec q.num.toNat hn0
  obtain ⟨hb1, hb2, hb3⟩ := bitLen_spec q.den hd0
  have hqeq : q = (q.num.toNat : ℚ) / (q.den : ℚ) := by
    have h1 : ((q.num.toNat : Nat) : Int) = q.num := by omega
    have h2 : ((q.num.toNat : Nat) : ℚ) = (q.num : ℚ) := by exact_mod_cast h1
    rw [h2]; exact (Rat.num_div_den q).symm
  have hdpos : (0 : ℚ) < (q.den : ℚ) := by exact_mod_cast Nat.pos_of_ne_zero hd0
  have two_ne : (2 : ℚ) ≠ 0 := by norm_num
  -- bounds on numerator and denominator, as rationals
  have hA3 : (q.num.toNat : ℚ) < (2 : ℚ) ^ (bitLen q.num.toNat : Int) := by
    rw [zpow_natCast]; exact_mod_cast ha3
  have hA2 : (2 : ℚ) ^ ((bitLen q.num.toNat : Int) - 1) ≤ (q.num.toNat : ℚ) := by
    have e : ((bitLen q.num.toNat : Int) - 1) = ((bitLen q.num.toNat - 1 : Nat) : Int) := by omega
    rw [e, zpow_natCast]; exact_mod_cast ha2
  have hB3 : (q.den : ℚ) < (2 : ℚ) ^ (bitLen q.den : Int) := by
    rw [zpow_natCast]; exact_mod_cast hb3
  have hB2 : (2 : ℚ) ^ ((bitLen q.den : Int) - 1) ≤ (q.den : ℚ) := by
    have e : ((bitLen q.den : Int) - 1) = ((bitLen q.den - 1 : Nat) : Int) := by omega
    rw [e, zpow_natCast]; exact_mod_cast hb2
  -- the quotient lies strictly between `2^(l - 1)` and `2^(l + 1)`
  have hupper : q < (2 : ℚ) ^ ((bitLen q.num.toNat : Int) - (bitLen q.den : Int) + 1) := by
    have e : ((bitLen q.num.toNat : Int) - (bitLen q.den : Int) + 1) =
        (bitLen q.num.toNat : Int) - ((bitLen q.den : Int) - 1) := by ring
    have hfrac : (q.num.toNat : ℚ) / (q.den : ℚ) <
        (2 : ℚ) ^ (bitLen q.num.toNat : Int) / (2 : ℚ) ^ ((bitLen q.den : Int) - 1) := by
      rw [div_lt_div_iff₀ hdpos (two_zpow_pos _)]
      calc (q.num.toNat : ℚ) * (2 : ℚ) ^ ((bitLen q.den : Int) - 1)
          ≤ (q.num.toNat : ℚ) * (q.den : ℚ) :=
            mul_le_mul_of_nonneg_left hB2 (Nat.cast_nonneg _)
        _ < (2 : ℚ) ^ (bitLen q.num.toNat : Int) * (q.den : ℚ) :=
            mul_lt_mul_of_pos_right hA3 hdpos
    rw [e, zpow_sub₀ two_ne]
    calc q = (q.num.toNat : ℚ) / (q.den : ℚ) := hqeq
      _ < _ := hfrac
  have hlower : (2 : ℚ) ^ ((bitLen q.num.toNat : Int) - (bitLen q.den : Int) - 1) ≤ q := by
    have e : ((bitLen q.num.toNat : Int) - (bitLen q.den : Int) - 1) =
        ((bitLen q.num.toNat : Int) - 1) - (bitLen q.den : Int) := by ring
    have hfrac : (2 : ℚ) ^ ((bitLen q.num.toNat : Int) - 1) / (2 : ℚ) ^ (bitLen q.den : Int) ≤
        (q.num.toNat : ℚ) / (q.den : ℚ) := by
      rw [div_le_div_iff₀ (two_zpow_pos _) hdpos]
      calc (2 : ℚ) ^ ((bitLen q.num.toNat : Int) - 1) * (q.den : ℚ)
          ≤ (q.num.toNat : ℚ) * (q.den : ℚ) :=
            mul_le_mul_of_nonneg_right hA2 hdpos.le
        _ ≤ (q.num.toNat : ℚ) * (2 : ℚ) ^ (bitLen q.den : Int) :=
            mul_le_mul_of_nonneg_left hB3.le (Nat.cast_nonneg _)
    rw [e, zpow_sub₀ two_ne]
    calc _ ≤ (q.num.toNat : ℚ) / (q.den : ℚ) := hfrac
      _ = q := hqeq.symm
  unfold ilog2
  split_ifs with h
  · exact ⟨h, hupper⟩
  · refine ⟨hlower, ?_⟩
    have e : ((bitLen q.num.toNat : Int) - (bitLen q.den : Int) - 1 + 1) =
        (bitLen q.num.toNat : Int) - (bitLen q.den : Int) := by ring
    rw [e]; exact lt_of_not_le h

/-- The binary exponent is the integer logarithm in base two. -/
theorem ilog2_eq_log (q : ℚ) (hq : 0 < q) : ilog2 q = Int.log 2 q := by
  obtain ⟨h1, h2⟩ := ilog2_spec q hq
  have h1' : ((2 : Nat) : ℚ) ^ ilog2 q ≤ q := by simpa using h1
  have h2' : q < ((2 : Nat) : ℚ) ^ (ilog2 q + 1) := by simpa using h2
  have a := (Int.zpow_le_iff_le_log (R := ℚ) (b := 2) (by norm_num) hq).mp h1'
  have b := (Int.lt_zpow_iff_log_lt (R := ℚ) (b := 2) (by norm_num) hq).mp h2'
  omega

theorem ulpExp_eq (q : ℚ) (hq : 0 < q) : ulpExp q = max (Int.log 2 q - 52) (-1074) := by
  unfold ulpExp; rw [ilog2_eq_log q hq]

theorem roundHalfEven_natCast (m : Nat) : roundHalfEven (m : ℚ) = m := by
  unfold roundHalfEven
  simp only [Nat.floor_natCast, sub_self]
  rw [if_pos (by norm_num)]

/-- Rounding to the nearest integer does not cross an integer. -/
theorem roundHalfEven_le (k : ℚ) (N : Nat) (h : k ≤ N) : roundHalfEven k ≤ N := by
  unfold roundHalfEven
  have hf : ⌊k⌋₊ ≤ N := Nat.floor_le_of_le h
  simp only
  split_ifs with h1 h2 h3
  · exact hf
  · by_contra hlt
    have hN : ⌊k⌋₊ = N := by omega
    rw [hN] at h2
    linarith
  · exact hf
  · by_contra hlt
    have hN : ⌊k⌋₊ = N := by omega
    rw [hN] at h1
    have : k - (N : ℚ) ≤ 0 := by linarith
    exact h1 (by linarith)

theorem roundMag_nonneg (q : ℚ) : 0 ≤ roundMag q := by
  unfold roundMag
  split_ifs
  · exact le_refl 0
  · exact mul_nonneg (Nat.cast_nonneg _) (two_zpow_pos _).le

/-- A bound on the scaled magnitude carries over to the rounded magnitude. -/
theorem roundMag_le (q : ℚ) (B : Nat) (h : q / (2 : ℚ) ^ ulpExp q ≤ B) :
    roundMag q ≤ (B : ℚ) * (2 : ℚ) ^ ulpExp q := by
  unfold roundMag
  split_ifs
  · exact mul_nonneg (Nat.cast_nonneg _) (two_zpow_pos _).le
  · apply mul_le_mul_of_nonneg_right _ (two_zpow_pos _).le
    exact_mod_cast roundHalfEven_le _ B h

/-- Integers below `2^53` are representable: rounding leaves them as they are. -/
theorem roundMag_natCast (n : Nat) (h : n < 2 ^ 53) : roundMag (n : ℚ) = n := by
  unfold roundMag
  by_cases h0 : (n : ℚ) = 0
  · rw [if_pos h0, h0]
  · rw [if_neg h0]
    have hn0 : n ≠ 0 := by exact_mod_cast h0
    have hlog : Nat.log 2 n < 53 := Nat.log_lt_of_lt_pow hn0 h
    have hulp : ulpExp (n : ℚ) = -((52 - Nat.log 2 n : Nat) : Int) := by
      rw [ulpExp_eq _ (by exact_mod_cast Nat.pos_of_ne_zero hn0), Int.log_natCast]
      omega
    rw [hulp]
    have hscale : (n : ℚ) / (2 : ℚ) ^ (-((52 - Nat.log 2 n : Nat) : Int)) =
        ((n * 2 ^ (52 - Nat.log 2 n) : Nat) : ℚ) := by
      rw [zpow_neg, zpow_natCast, div_inv_eq_mul]
      push_cast; rfl
    rw [hscale, roundHalfEven_natCast, zpow_neg, zpow_natCast]
    push_cast
    have hpos : (0 : ℚ) < (2 : ℚ) ^ (52 - Nat.log 2 n) := pow_pos (by norm_num) _
    field_simp

theorem roundTo_natCast (s : Bool) (n : Nat) (h : n < 2 ^ 53) :
    roundTo s (n : ℚ) = Double.fin s (n : ℚ) := by
  unfold roundTo
  rw [roundMag_natCast n h, if_neg]
  have h1 : (n : ℚ) < (2 : ℚ) ^ (53 : Nat) := by exact_mod_cast h
  have h2 : (2 : ℚ) ^ (53 : Nat) ≤ (2 : ℚ) ^ (1024 : Nat) :=
    pow_le_pow_right₀ (by norm_num) (by norm_num)
  intro hc
  linarith

/-- The conversion of a non-negative `int` is exact. -/
theorem ofInt_nonneg (r : Int) (h0 : 0 ≤ r) (h1 : r ≤ INT_MAX) :
    Double.ofInt r = Double.fin false (r : ℚ) := by
  unfold Double.ofInt
  have hneg : decide (r < 0) = false := by simp; omega
  have habs : |(r : ℚ)| = ((r.toNat : Nat) : ℚ) := by
    rw [abs_of_nonneg (by exact_mod_cast h0)]
    have : ((r.toNat : Nat) : Int) = r := by omega
    exact_mod_cast this.symm
  rw [hneg, habs, roundTo_natCast false r.toNat (by unfold INT_MAX at h1; omega)]
  congr 1
  have : ((r.toNat : Nat) : Int) = r := by omega
  exact_mod_cast this

/-- A quotient below one whose denominator is at most `2^53` rounds to a value below one. -/
theorem roundMag_lt_one (q : ℚ) (M : ℚ) (hq0 : 0 < q) (hM0 : 0 < M) (hM : M ≤ 2 ^ (53 : Nat))
    (hq : q ≤ 1 - 1 / M) : roundMag q < 1 := by
  have hq1 : q < 1 := by
    have : 0 < 1 / M := by positivity
    linarith
  have hL : Int.log 2 q < 0 := by
    have h := (Int.lt_zpow_iff_log_lt (R := ℚ) (b := 2) (by norm_num) (x := 0) hq0).mp
      (by simpa using hq1)
    exact h
  have hup : q < (2 : ℚ) ^ (Int.log 2 q + 1) := by
    have := Int.lt_zpow_succ_log_self (R := ℚ) (b := 2) (by norm_num) q
    simpa using this
  by_cases hcase : Int.log 2 q ≤ -2
  · have he1 : Int.log 2 q - 52 ≤ ulpExp q := by rw [ulpExp_eq q hq0]; exact le_max_left _ _
    have he2 : ulpExp q ≤ -54 := by rw [ulpExp_eq q hq0]; omega
    have hscale : q / (2 : ℚ) ^ ulpExp q ≤ ((2 ^ 53 : Nat) : ℚ) := by
      rw [div_le_iff₀ (two_zpow_pos _)]
      have h1 : (2 : ℚ) ^ (Int.log 2 q + 1) = (2 : ℚ) ^ (53 : Int) * (2 : ℚ) ^ (Int.log 2 q - 52) := by
        rw [← zpow_add₀ (by norm_num : (2 : ℚ) ≠ 0)]
        congr 1; ring
      have h2 : (2 : ℚ) ^ (Int.log 2 q - 52) ≤ (2 : ℚ) ^ ulpExp q :=
        zpow_le_zpow_right₀ (by norm_num) he1
      have h3 : ((2 ^ 53 : Nat) : ℚ) = (2 : ℚ) ^ (53 : Int) := by norm_num
      rw [h3]
      have h4 : (2 : ℚ) ^ (53 : Int) * (2 : ℚ) ^ (Int.log 2 q - 52) ≤
          (2 : ℚ) ^ (53 : Int) * (2 : ℚ) ^ ulpExp q :=
        mul_le_mul_of_nonneg_left h2 (two_zpow_pos _).le
      linarith
    have hb := roundMag_le q (2 ^ 53) hscale
    have h5 : ((2 ^ 53 : Nat) : ℚ) * (2 : ℚ) ^ ulpExp q ≤ (2 : ℚ) ^ (-1 : Int) := by
      have h3 : ((2 ^ 53 : Nat) : ℚ) = (2 : ℚ) ^ (53 : Int) := by norm_num
      rw [h3, ← zpow_add₀ (by norm_num : (2 : ℚ) ≠ 0)]
      exact zpow_le_zpow_right₀ (by norm_num) (by omega)
    have h6 : (2 : ℚ) ^ (-1 : Int) < 1 := by norm_num
    linarith
  · have hLeq : Int.log 2 q = -1 := by omega
    have he : ulpExp q = -53 := by rw [ulpExp_eq q hq0, hLeq]; rfl
    have hscale : q / (2 : ℚ) ^ ulpExp q ≤ ((2 ^ 53 - 1 : Nat) : ℚ) := by
      rw [he, div_le_iff₀ (two_zpow_pos _)]
      have h1 : ((2 ^ 53 - 1 : Nat) : ℚ) * (2 : ℚ) ^ (-53 : Int) = 1 - 1 / 2 ^ (53 : Nat) := by
        norm_num
      rw [h1]
      have h2 : 1 / (2 : ℚ) ^ (53 : Nat) ≤ 1 / M :=
        one_div_le_one_div_of_le hM0 hM
      linarith
    have hb := roundMag_le q (2 ^ 53 - 1) hscale
    rw [he] at hb
    have h1 : ((2 ^ 53 - 1 : Nat) : ℚ) * (2 : ℚ) ^ (-53 : Int) < 1 := by norm_num
    linarith

/-- The value stored by the initialiser for a generator output `r` in `[0, RAND_MAX]`:
a finite non-negative `double` at most one, below one exactly when `r < RAND_MAX`. -/
theorem rand_unit_value (RM r : Int) (hRM0 : 0 < RM) (hRM : RM ≤ INT_MAX) (hr0 : 0 ≤ r)
    (hr : r ≤ RM) :
    ∃ q : ℚ, rand_unit RM r = Double.fin false q ∧ 0 ≤ q ∧ q ≤ 1 ∧ (q < 1 ↔ r < RM) := by
  have hRMq : (0 : ℚ) < (RM : ℚ) := by exact_mod_cast hRM0
  have hdiv : rand_unit RM r = roundTo false ((r : ℚ) / (RM : ℚ)) := by
    unfold rand_unit
    rw [ofInt_nonneg r hr0 (by omega), ofInt_nonneg RM hRM0.le hRM]
    unfold Double.div
    simp only [Bool.xor_false]
    rw [if_neg hRMq.ne']
  have hfin : ∀ v : ℚ, roundMag ((r : ℚ) / (RM : ℚ)) = v → v ≤ 1 →
      roundTo false ((r : ℚ) / (RM : ℚ)) = Double.fin false v := by
    intro v hv hv1
    unfold roundTo
    rw [hv, if_neg]
    intro hc
    have : (1 : ℚ) < (2 : ℚ) ^ (1024 : Nat) := one_lt_pow₀ (by norm_num) (by norm_num)
    linarith
  rcases hr.lt_or_eq with hlt | heq
  · by_cases hr00 : r = 0
    · subst hr00
      have hz : roundMag (((0 : Int) : ℚ) / (RM : ℚ)) = 0 := by simp [roundMag]
      refine ⟨0, ?_, le_refl 0, by norm_num, ?_⟩
      · rw [hdiv]; exact hfin 0 hz (by norm_num)
      · constructor
        · intro _; exact hlt
        · intro _; norm_num
    · have hrpos : (0 : ℚ) < (r : ℚ) := by exact_mod_cast (by omega : 0 < r)
      have hq0 : (0 : ℚ) < (r : ℚ) / (RM : ℚ) := div_pos hrpos hRMq
      have hqle : (r : ℚ) / (RM : ℚ) ≤ 1 - 1 / (RM : ℚ) := by
        rw [div_le_iff₀ hRMq]
        have h1 : (r : ℚ) ≤ (RM : ℚ) - 1 := by exact_mod_cast (by omega : r ≤ RM - 1)
        have h2 : (1 - 1 / (RM : ℚ)) * (RM : ℚ) = (RM : ℚ) - 1 := by field_simp
        rw [h2]; exact h1
      have hM53 : (RM : ℚ) ≤ (2 : ℚ) ^ (53 : Nat) := by
        have : RM ≤ (2 : Int) ^ (53 : Nat) := by unfold INT_MAX at hRM; omega
        exact_mod_cast this
      have hlt1 := roundMag_lt_one _ (RM : ℚ) hq0 hRMq hM53 hqle
      refine ⟨roundMag ((r : ℚ) / (RM : ℚ)), ?_, roundMag_nonneg _, hlt1.le, ?_⟩
      · rw [hdiv]; exact hfin _ rfl hlt1.le
      · constructor
        · intro _; exact hlt
        · intro _; exact hlt1
  · subst heq
    have hone : roundMag ((r : ℚ) / (r : ℚ)) = 1 := by
      rw [div_self hRMq.ne']
      have := roundMag_natCast 1 (by norm_num)
      simpa using this
    refine ⟨1, ?_, by norm_num, le_refl 1, ?_⟩
    · rw [hdiv]; exact hfin 1 hone (le_refl 1)
    · constructor
      · intro h; exact absurd h (lt_irrefl 1)
      · intro h; exact absurd h (lt_irrefl r)

/-! ## The partition: coverage and balance -/

/-- C1 (partition coverage). For `p > 0` and `n_threads ≥ 1` the ranges `[start(id), end(id))`
computed in `saxpy_parallel` satisfy `start(0) = 0`, `end(id) = start(id + 1)` for
`id < n_threads - 1`, `end(n_threads - 1) = p` and `start(id) ≤ end(id)`; every index of
`[0, p)` lies in the range of exactly one worker. -/
theorem partition_coverage (p n_threads : Int) (hp : 0 < p) (hn : 1 ≤ n_threads) :
    start p n_threads 0 = 0 ∧
    (∀ id, 0 ≤ id → id < n_threads - 1 → end_ p n_threads id = start p n_threads (id + 1)) ∧
    end_ p n_threads (n_threads - 1) = p ∧
    (∀ id, 0 ≤ id → id < n_threads → start p n_threads id ≤ end_ p n_threads id) ∧
    (∀ i, 0 ≤ i → i < p →
      ∃! id, (0 ≤ id ∧ id < n_threads) ∧ start p n_threads id ≤ i ∧ i < end_ p n_threads id) := by
  refine ⟨start_zero p n_threads hp.le hn, fun id _ _ => end_eq_start_succ p n_threads id, ?_,
    fun id _ _ => start_le_end p n_threads id hp.le (by omega), ?_⟩
  · rw [end_eq_start_succ]
    have e : n_threads - 1 + 1 = n_threads := by ring
    rw [e]; exact start_n p n_threads hp.le hn
  · intro i hi0 hip
    obtain ⟨id, h0, h1, h2, h3⟩ := exists_worker p n_threads i hp hn hi0 hip
    refine ⟨id, ⟨⟨h0, h1⟩, h2, h3⟩, ?_⟩
    rintro id' ⟨⟨_, _⟩, h2', h3'⟩
    rcases lt_trichotomy id' id with hlt | heq | hgt
    · exact absurd h2 (ranges_disjoint p n_threads id' id i hp.le (by omega) hlt h3')
    · exact heq
    · exact absurd h2' (ranges_disjoint p n_threads id id' i hp.le (by omega) hgt h3)

/-- Witness of C1: `p = 10` split over `n_threads = 3` workers gives the ranges `[0, 4)`,
`[4, 7)`, `[7, 10)`. -/
theorem partition_coverage_witness :
    start 10 3 0 = 0 ∧ end_ 10 3 0 = start 10 3 1 ∧ end_ 10 3 2 = 10 ∧
      start 10 3 1 ≤ end_ 10 3 1 ∧
      (∃! id, (0 ≤ id ∧ id < 3) ∧ start 10 3 id ≤ 5 ∧ 5 < end_ 10 3 id) :=
  have h := partition_coverage 10 3 (by decide) (by decide)
  ⟨h.1, h.2.1 0 (by decide) (by decide), h.2.2.1, h.2.2.2.1 1 (by decide) (by decide),
    h.2.2.2.2 5 (by decide) (by decide)⟩

/-- No intermediate value of the partition arithmetic leaves the range of `int`. -/
theorem partition_fits_int (p n_threads id : Int) (hp : 0 < p) (hpmax : p ≤ INT_MAX)
    (hn : 1 ≤ n_threads) (hid0 : 0 ≤ id) (hid : id < n_threads) :
    fitsInt (chunk_size p n_threads) ∧ fitsInt (extra p n_threads) ∧
    fitsInt (id * chunk_size p n_threads) ∧ fitsInt (start p n_threads id) ∧
    fitsInt (start p n_threads id + chunk_size p n_threads) ∧ fitsInt (end_ p n_threads id) := by
  have hc := chunk_size_nonneg p n_threads hp.le (by omega)
  have he0 := extra_nonneg p n_threads hp.le hn
  have hen := extra_lt p n_threads hp.le hn
  have hs0 := start_nonneg p n_threads id hp.le hn hid0
  have hse := start_le_end p n_threads id hp.le (by omega)
  have hep := end_le_p p n_threads id hp.le hn hid
  have hmul : 0 ≤ id * chunk_size p n_threads := mul_nonneg hid0 hc
  have hst : start p n_threads id =
      id * chunk_size p n_threads + (if id < extra p n_threads then id else extra p n_threads) := rfl
  have hen2 : end_ p n_threads id = start p n_threads id + chunk_size p n_threads +
      (if id < extra p n_threads then 1 else 0) := rfl
  have hsum := chunk_extra_sum p n_threads hp.le (by omega)
  have hcp : chunk_size p n_threads ≤ p := by nlinarith
  have hexp : extra p n_threads ≤ p := by nlinarith
  unfold fitsInt INT_MIN
  unfold INT_MAX at hpmax ⊢
  split_ifs at hst hen2 <;> refine ⟨⟨?_, ?_⟩, ⟨?_, ?_⟩, ⟨?_, ?_⟩, ⟨?_, ?_⟩, ⟨?_, ?_⟩, ⟨?_, ?_⟩⟩ <;> omega

/-- C2 (balanced partition). For `p > 0`, `n_threads ≥ 1` and every worker `id` (those of
`[0, n_threads)` in particular) the size `end(id) - start(id)` is `p / n_threads + 1` when
`id < p % n_threads` and `p / n_threads` otherwise; so exactly the workers
`id < p % n_threads` hold one more element, and the sizes of two workers differ by at
most one. -/
theorem balanced_partition (p n_threads id : Int) (hp : 0 < p) (hn : 1 ≤ n_threads) :
    end_ p n_threads id - start p n_threads id =
      (if id < p % n_threads then p / n_threads + 1 else p / n_threads) ∧
    (end_ p n_threads id - start p n_threads id = p / n_threads + 1 ↔ id < p % n_threads) ∧
    (∀ id', |(end_ p n_threads id - start p n_threads id) -
        (end_ p n_threads id' - start p n_threads id')| ≤ 1) := by
  have hsize : ∀ j : Int, end_ p n_threads j - start p n_threads j =
      (if j < p % n_threads then p / n_threads + 1 else p / n_threads) := by
    intro j
    unfold end_
    rw [chunk_size_eq p n_threads hp.le (by omega), extra_eq p n_threads hp.le (by omega)]
    split_ifs <;> omega
  refine ⟨hsize id, ?_, ?_⟩
  · rw [hsize id]
    split_ifs with h
    · simp [h]
    · constructor
      · intro h'; omega
      · intro h'; exact absurd h' h
  · intro id'
    rw [hsize id, hsize id', abs_le]
    split_ifs <;> constructor <;> omega

/-- Witness of C2: with `p = 10`, `n_threads = 3` worker `0` holds `10 / 3 + 1 = 4` elements. -/
theorem balanced_partition_witness :
    end_ 10 3 0 - start 10 3 0 = (if (0 : Int) < 10 % 3 then 10 / 3 + 1 else 10 / 3) :=
  (balanced_partition 10 3 0 (by decide) (by decide)).1

/-! ## The final vector and the averages -/

theorem Y_after_get {α : Type} (A : DoubleOps α) (a : α) (X Y : List α) (k i : Nat) (x y : α)
    (hx : X[i]? = some x) (hy : Y[i]? = some y) :
    (Y_after A a X Y k)[i]? = some ((fun v => A.add v (A.mul a x))^[k] y) := by
  unfold Y_after
  rw [List.getElem?_zipWith, hx, hy]
  rfl

/-- C4 (thread-count invariance of `Y`). For `p > 0`, `max_iters ≥ 0`, vectors `X`, `Y` of
`p` elements and two thread counts `n1, n2 ≥ 1`, the parallel phase returns for both, in
whatever order the workers complete, with the same final `Y`: each `Y[i]` is the result
of `max_iters` successive applications of `y ↦ y + a * X[i]` to its initial value. This
holds for every `double` arithmetic, rounding included. -/
theorem thread_count_invariance_Y {α : Type} (A : DoubleOps α) (X Y : List α) (a : α)
    (p n1 n2 max_iters : Int) (order1 order2 : List Nat)
    (hp : 0 < p) (hn1 : 1 ≤ n1) (hn2 : 1 ≤ n2) (hm : 0 ≤ max_iters)
    (hX : X.length = p.toNat) (hY : Y.length = p.toNat)
    (ho1 : order1.Perm (List.range n1.toNat)) (ho2 : order2.Perm (List.range n2.toNat)) :
    ∃ g1 g2, run_threads A order1 (init_globals A X Y a p n1 max_iters) = some g1 ∧
      run_threads A order2 (init_globals A X Y a p n2 max_iters) = some g2 ∧
      g1.Y = g2.Y ∧
      (∀ (i : Nat) (x y : α), X[i]? = some x → Y[i]? = some y →
        g1.Y[i]? = some ((fun v => A.add v (A.mul a x))^[max_iters.toNat] y)) := by
  have hM : ((max_iters.toNat : Nat) : Int) = max_iters := by omega
  obtain ⟨g1, h1, _, hY1, _, _⟩ :=
    run_threads_all A X Y a p n1 max_iters.toNat order1 hp hn1 hX hY ho1
  obtain ⟨g2, h2, _, hY2, _, _⟩ :=
    run_threads_all A X Y a p n2 max_iters.toNat order2 hp hn2 hX hY ho2
  rw [hM] at h1 h2
  refine ⟨g1, g2, h1, h2, by rw [hY1, hY2], ?_⟩
  intro i x y hx hy
  rw [hY1]
  exact Y_after_get A a X Y _ i x y hx hy

/-- C3, as amended (average as the program computes it). For `p > 0`, `n_threads ≥ 1`,
`max_iters ≥ 1`, vectors `X`, `Y` of `p` elements and every `double` arithmetic, the timed
part of `main` returns and, for every `it < max_iters`, `Y_avgs[it]` is the sum, over the
workers in the order of their ids and from `0.0`, of each worker's left-to-right sum of
its chunk of `Y` after `it + 1` updates, divided by `p`. When the addition is exact
(associative, `0.0` neutral) this is the sequential mean of `Y` after `it + 1` updates. -/
theorem average_chunked {α : Type} (A : DoubleOps α) (X Y : List α) (a : α)
    (p n_threads max_iters : Int) (order : List Nat) (it : Nat)
    (hp : 0 < p) (hn : 1 ≤ n_threads) (hm : 1 ≤ max_iters)
    (hX : X.length = p.toNat) (hY : Y.length = p.toNat)
    (hord : order.Perm (List.range n_threads.toNat)) (hit : (it : Int) < max_iters) :
    ∃ g, compute A order (init_globals A X Y a p n_threads max_iters) = some g ∧
      g.Y_avgs[it]? = some (mean_chunked A a X Y p n_threads it) ∧
      ((∀ x y z, A.add (A.add x y) z = A.add x (A.add y z)) →
        (∀ x, A.add A.zero x = x) → (∀ x, A.add x A.zero = x) →
        g.Y_avgs[it]? = some (mean_seq A p (Y_after A a X Y (it + 1)))) := by
  have hM : ((max_iters.toNat : Nat) : Int) = max_iters := by omega
  obtain ⟨g, hrun, _, havg, _⟩ :=
    compute_spec A X Y a p n_threads max_iters.toNat order hp hn hX hY hord
  rw [hM] at hrun
  have hget : g.Y_avgs[it]? = some (mean_chunked A a X Y p n_threads it) := by
    rw [havg, List.getElem?_map, List.getElem?_range (by omega)]
    rfl
  refine ⟨g, hrun, hget, ?_⟩
  intro hassoc hzl hzr
  rw [hget, mean_chunked_eq_mean_seq A a X Y p n_threads it hp.le hn hX hY hassoc hzl hzr]

/-- C5, as amended (averages for two thread counts). For `p > 0`, `max_iters ≥ 1`, vectors
`X`, `Y` of `p` elements, two thread counts `n1, n2 ≥ 1` and every `double` arithmetic,
the timed part of `main` returns for both; each `Y_avgs[it]` is the chunked sum for its
own thread count divided by `p`, and the two arrays are equal, entry by entry, when the
addition is exact (associative, `0.0` neutral). -/
theorem averages_invariance_exact {α : Type} (A : DoubleOps α) (X Y : List α) (a : α)
    (p n1 n2 max_iters : Int) (order1 order2 : List Nat)
    (hp : 0 < p) (hn1 : 1 ≤ n1) (hn2 : 1 ≤ n2) (hm : 1 ≤ max_iters)
    (hX : X.length = p.toNat) (hY : Y.length = p.toNat)
    (ho1 : order1.Perm (List.range n1.toNat)) (ho2 : order2.Perm (List.range n2.toNat)) :
    ∃ g1 g2, compute A order1 (init_globals A X Y a p n1 max_iters) = some g1 ∧
      compute A order2 (init_globals A X Y a p n2 max_iters) = some g2 ∧
      g1.Y_avgs = (List.range max_iters.toNat).map (mean_chunked A a X Y p n1) ∧
      g2.Y_avgs = (List.range max_iters.toNat).map (mean_chunked A a X Y p n2) ∧
      ((∀ x y z, A.add (A.add x y) z = A.add x (A.add y z)) →
        (∀ x, A.add A.zero x = x) → (∀ x, A.add x A.zero = x) →
        g1.Y_avgs = g2.Y_avgs) := by
  have hM : ((max_iters.toNat : Nat) : Int) = max_iters := by omega
  obtain ⟨g1, h1, _, havg1, _⟩ :=
    compute_spec A X Y a p n1 max_iters.toNat order1 hp hn1 hX hY ho1
  obtain ⟨g2, h2, _, havg2, _⟩ :=
    compute_spec A X Y a p n2 max_iters.toNat order2 hp hn2 hX hY ho2
  rw [hM] at h1 h2
  refine ⟨g1, g2, h1, h2, havg1, havg2, ?_⟩
  intro hassoc hzl hzr
  rw [havg1, havg2]
  apply List.map_congr_left
  intro it _
  rw [mean_chunked_eq_mean_seq A a X Y p n1 it hp.le hn1 hX hY hassoc hzl hzr,
    mean_chunked_eq_mean_seq A a X Y p n2 it hp.le hn2 hX hY hassoc hzl hzr]

/-! ## Workers with an empty range, and the frame of a worker -/

/-- The outer loop of a worker whose range is empty changes neither `Y` nor the buffer;
its only accesses are the reads of `local_Y_avgs[it]`. -/
theorem outer_loop_empty {α : Type} (A : DoubleOps α) (X : List α) (a : α) (c : Int) :
    ∀ (r t : Nat) (m : WorkerMem α), t + r ≤ m.data.local_Y_avgs.length →
      ∃ m1, loopN (outer_body A X a c c) r (t : Int) m = some m1 ∧
        m1.Y = m.Y ∧
        m1.trace = m.trace ++ (List.range' t r).map (fun (s : Nat) => Access.readLocal (s : Int)) ∧
        m1.data.local_Y_avgs = m.data.local_Y_avgs ∧ m1.data.id = m.data.id := by
  intro r
  induction r with
  | zero =>
    intro t m _
    exact ⟨m, rfl, rfl, by simp, rfl, rfl⟩
  | succ r ih =>
    intro t m hL
    have hinner : forLoop c c (inner_body A X a (t : Int)) m = some m := by
      unfold forLoop
      rw [sub_self]
      rfl
    obtain ⟨m1, hrun, h1, h2, h3, h4⟩ := ih (t + 1)
      { m with data := { m.data with
                 Y_avg := A.add m.data.Y_avg (m.data.local_Y_avgs.getD t A.zero) },
               trace := m.trace ++ [.readLocal (t : Int)] }
      (by show t + 1 + r ≤ m.data.local_Y_avgs.length; omega)
    refine ⟨m1, ?_, h1, ?_, h3, h4⟩
    · simp only [loopN]
      unfold outer_body
      rw [hinner, Option.some_bind, readAt_of_lt _ t A.zero (by omega), Option.some_bind,
        Option.some_bind]
      have hc : ((t : Int) + 1) = ((t + 1 : Nat) : Int) := by push_cast; rfl
      rw [hc]; exact hrun
    · rw [h2, List.range'_succ, List.map_cons]
      show (m.trace ++ [Access.readLocal (t : Int)]) ++ _ = _
      rw [List.append_assoc]
      rfl

/-- Counterexample to C6 as stated: worker `3` of four on `p = 2` elements has the empty
range `[2, 2)`, yet its run reads the array `local_Y_avgs` once per iteration (for
`data->Y_avg += data->local_Y_avgs[it]`): with `max_iters = 2` its accesses are the reads
of `local_Y_avgs[0]` and `local_Y_avgs[1]`. -/
theorem empty_range_worker_reads_buffer :
    start 2 4 3 = 2 ∧ end_ 2 4 3 = 2 ∧
    (saxpy_parallel ieee [one, half] half 2 4 2 idle_mem).map (fun m => m.trace) =
      some [Access.readLocal 0, Access.readLocal 1] := by
  decide

/-- C6, as amended (empty-range boundary). For `p > 0` and `n_threads > p`, every worker
`id` with `p ≤ id < n_threads` gets `start(id) = end(id) = p` and every worker `id < p`
gets `[id, id + 1)`. A run of `saxpy_parallel` for a worker with `p ≤ id` on its freshly
allocated record returns; it makes no access to `X` or `Y` and no write to any array: its
only array accesses are the reads of its own `local_Y_avgs[it]`, one for each
`it < max_iters`; it leaves `Y` unchanged and `local_Y_avgs[it] = 0.0` for every
`it < max_iters`. -/
theorem empty_range_worker {α : Type} (A : DoubleOps α) (X : List α) (a : α)
    (p n_threads max_iters : Int) (m : WorkerMem α)
    (hp : 0 < p) (hnp : p < n_threads) (hm : 0 ≤ max_iters)
    (hid1 : p ≤ m.data.id) (hid2 : m.data.id < n_threads)
    (hL : m.data.local_Y_avgs = List.replicate max_iters.toNat A.zero) :
    (∀ id, p ≤ id → id < n_threads → start p n_threads id = p ∧ end_ p n_threads id = p) ∧
    (∀ id, 0 ≤ id → id < p → start p n_threads id = id ∧ end_ p n_threads id = id + 1) ∧
    ∃ m1, saxpy_parallel A X a p n_threads max_iters m = some m1 ∧
      m1.trace = m.trace ++
        (List.range max_iters.toNat).map (fun (it : Nat) => Access.readLocal (it : Int)) ∧
      (∀ x, x ∈ m1.trace → x ∈ m.trace ∨ (x.isVector = false ∧ x.isWrite = false)) ∧
      m1.Y = m.Y ∧
      (∀ it : Nat, (it : Int) < max_iters → m1.data.local_Y_avgs[it]? = some A.zero) := by
  have hc : chunk_size p n_threads = 0 := by
    rw [chunk_size_eq p n_threads hp.le (by omega)]
    exact Int.ediv_eq_zero_of_lt hp.le hnp
  have he : extra p n_threads = p := by
    rw [extra_eq p n_threads hp.le (by omega)]
    exact Int.emod_eq_of_lt hp.le hnp
  have hbig : ∀ id, p ≤ id → id < n_threads →
      start p n_threads id = p ∧ end_ p n_threads id = p := by
    intro id h1 _
    unfold end_ start
    rw [hc, he, if_neg (by omega)]
    constructor <;> omega
  refine ⟨hbig, ?_, ?_⟩
  · intro id _ h2
    unfold end_ start
    rw [hc, he, if_pos h2]
    constructor <;> omega
  · obtain ⟨hs, hen⟩ := hbig m.data.id hid1 hid2
    have hM : ((max_iters.toNat : Nat) : Int) = max_iters := by omega
    obtain ⟨m1, hrun, h1, h2, h3, _⟩ := outer_loop_empty A X a p max_iters.toNat 0 m
      (by rw [hL]; simp)
    rw [← List.range_eq_range'] at h2
    refine ⟨m1, ?_, h2, ?_, h1, ?_⟩
    · unfold saxpy_parallel
      rw [if_neg (by omega), hs, hen, ← hM, forLoop_zero_natCast]
      exact hrun
    · intro x hx
      rw [h2, List.mem_append] at hx
      rcases hx with hx | hx
      · exact Or.inl hx
      · rw [List.mem_map] at hx
        obtain ⟨it, _, rfl⟩ := hx
        exact Or.inr ⟨rfl, rfl⟩
    · intro it hit
      rw [h3, hL, List.getElem?_replicate, if_pos (by omega)]

/-- Witness of C6 as amended: `p = 2`, `n_threads = 4`, worker `3`, two iterations. -/
theorem empty_range_worker_witness :
    ∃ m1, saxpy_parallel ieee [one, half] half 2 4 2 idle_mem = some m1 ∧
      m1.trace = idle_mem.trace ++
        (List.range (2 : Int).toNat).map (fun (it : Nat) => Access.readLocal (it : Int)) ∧
      (∀ x, x ∈ m1.trace → x ∈ idle_mem.trace ∨ (x.isVector = false ∧ x.isWrite = false)) ∧
      m1.Y = idle_mem.Y ∧
      (∀ it : Nat, (it : Int) < 2 → m1.data.local_Y_avgs[it]? = some ieee.zero) :=
  (empty_range_worker ieee [one, half] half 2 4 2 idle_mem
    (by decide) (by decide) (by decide) (by decide) (by decide) rfl).2.2

theorem getElem?_eq_of_getD {α : Type} (xs ys : List α) (d : α) (j : Nat)
    (hlen : xs.length = ys.length) (h : xs.getD j d = ys.getD j d) : xs[j]? = ys[j]? := by
  by_cases hj : j < xs.length
  · rw [List.getD_eq_getElem _ _ hj, List.getD_eq_getElem _ _ (by omega)] at h
    rw [List.getElem?_eq_getElem hj, List.getElem?_eq_getElem (by omega), h]
  · rw [List.getElem?_eq_none (by omega), List.getElem?_eq_none (by omega)]

/-- No two workers access the same element of `X` or `Y`: the accesses of distinct workers
to the vectors have distinct indices. -/
theorem workers_access_disjoint (p n : Int) (M k k' : Nat) (hp : 0 ≤ p) (hn : 1 ≤ n)
    (hkk : k ≠ k') (x y : Access) (hx : x ∈ worker_trace p n M k)
    (hy : y ∈ worker_trace p n M k') (hxv : x.isVector = true) (hyv : y.isVector = true) :
    x.index ≠ y.index := by
  have hlh := lo_le_hi p n k hp hn
  have hlh' := lo_le_hi p n k' hp hn
  have hwx := outer_trace_within (lo_of p n k) (hi_of p n k - lo_of p n k) 0 M (M : Int)
    (by push_cast; omega) x hx
  have hwy := outer_trace_within (lo_of p n k') (hi_of p n k' - lo_of p n k') 0 M (M : Int)
    (by push_cast; omega) y hy
  have e1 : lo_of p n k + (hi_of p n k - lo_of p n k) = hi_of p n k := by omega
  have e2 : lo_of p n k' + (hi_of p n k' - lo_of p n k') = hi_of p n k' := by omega
  rw [e1] at hwx
  rw [e2] at hwy
  intro heq
  have hrange : ∀ (z : Access) (lo hi : Nat), z.isVector = true →
      Access.within (lo : Int) (hi : Int) (M : Int) z →
      (lo : Int) ≤ z.index ∧ z.index < (hi : Int) := by
    intro z lo hi hz hw
    cases z <;> simp [Access.isVector] at hz <;> exact hw
  obtain ⟨a1, a2⟩ := hrange x _ _ hxv hwx
  obtain ⟨b1, b2⟩ := hrange y _ _ hyv hwy
  have hown : owns p n k x.index.toNat := ⟨by omega, by omega⟩
  have hown' : owns p n k' x.index.toNat := ⟨by omega, by omega⟩
  exact hkk (owns_unique p n k k' _ hp hn hown hown')

/-- C7 (worker frame). For `p > 0`, `n_threads ≥ 1`, `max_iters ≥ 0`, vectors of `p`
elements and a worker `k < n_threads` whose record holds `id = k` and a buffer of
`max_iters` elements, the run of the worker returns; every index at which it reads `X` or
reads or writes `Y` lies in `[start(k), end(k))` and in `[0, p)` (and every index into
its buffer lies in `[0, max_iters)`); `Y[j]` is unchanged for every `j` outside
`[start(k), end(k))`; `X`, `a`, `Y_avgs`, `p`, `n_threads`, `max_iters` and the records of
the other workers are unchanged, and the worker's own record keeps its `id`. -/
theorem worker_frame {α : Type} (A : DoubleOps α) (g : Globals α) (k : Nat)
    (d : thread_data_t α)
    (hp : 0 < g.p) (hn : 1 ≤ g.n_threads) (hm : 0 ≤ g.max_iters) (hk : (k : Int) < g.n_threads)
    (hX : g.X.length = g.p.toNat) (hY : g.Y.length = g.p.toNat)
    (hd : g.thread_data[k]? = some d) (hid : d.id = (k : Int))
    (hL : d.local_Y_avgs.length = g.max_iters.toNat) :
    ∃ g1, run_thread A k g = some g1 ∧
      g1.trace = g.trace ++ worker_trace g.p g.n_threads g.max_iters.toNat k ∧
      (∀ x, x ∈ worker_trace g.p g.n_threads g.max_iters.toNat k →
        Access.within (start g.p g.n_threads k) (end_ g.p g.n_threads k) g.max_iters x ∧
        Access.within 0 g.p g.max_iters x) ∧
      (∀ j : Nat, ¬ (start g.p g.n_threads k ≤ (j : Int) ∧ (j : Int) < end_ g.p g.n_threads k) →
        g1.Y[j]? = g.Y[j]?) ∧
      g1.Y.length = g.Y.length ∧
      g1.X = g.X ∧ g1.a = g.a ∧ g1.Y_avgs = g.Y_avgs ∧
      g1.p = g.p ∧ g1.n_threads = g.n_threads ∧ g1.max_iters = g.max_iters ∧
      (∀ k' : Nat, k' ≠ k → g1.thread_data[k']? = g.thread_data[k']?) ∧
      (∃ d1, g1.thread_data[k]? = some d1 ∧ d1.id = (k : Int)) := by
  have hM : ((g.max_iters.toNat : Nat) : Int) = g.max_iters := by omega
  obtain ⟨m1, hrun, post⟩ := saxpy_parallel_spec A g.X g.a g.p g.n_threads g.max_iters.toNat k
    { Y := g.Y, data := d, trace := g.trace } hp.le hn hk hid (by omega)
    (by show g.p.toNat ≤ g.Y.length; omega)
    (by show g.max_iters.toNat ≤ d.local_Y_avgs.length; omega)
  rw [hM] at hrun
  have clo := lo_of_cast g.p g.n_threads k hp.le hn
  have chi := hi_of_cast g.p g.n_threads k hp.le hn
  have hhi := hi_le_p g.p g.n_threads k hp.le hn hk
  have hklen : k < g.thread_data.length := by
    obtain ⟨h, _⟩ := List.getElem?_eq_some_iff.mp hd
    exact h
  refine ⟨{ g with Y := m1.Y, thread_data := g.thread_data.set k m1.data, trace := m1.trace },
    ?_, post.trace_eq, ?_, ?_, post.lenY, rfl, rfl, rfl, rfl, rfl, rfl, ?_, ?_⟩
  · unfold run_thread
    rw [hd, Option.some_bind, hrun, Option.some_bind]
  · intro x hx
    unfold worker_trace at hx
    have hlh := lo_le_hi g.p g.n_threads k hp.le hn
    have hw := outer_trace_within (lo_of g.p g.n_threads k)
      (hi_of g.p g.n_threads k - lo_of g.p g.n_threads k) 0 g.max_iters.toNat g.max_iters
      (by omega) x hx
    have hsum : lo_of g.p g.n_threads k + (hi_of g.p g.n_threads k - lo_of g.p g.n_threads k) =
        hi_of g.p g.n_threads k := by omega
    rw [hsum, clo, chi] at hw
    exact ⟨hw, within_mono _ _ 0 g.p _
      (start_nonneg g.p g.n_threads k hp.le hn (by omega))
      (end_le_p g.p g.n_threads k hp.le hn hk) x hw⟩
  · intro j hj
    apply getElem?_eq_of_getD _ _ A.zero j post.lenY
    rw [post.valY j, if_neg (by omega)]
  · intro k' hk'
    show (g.thread_data.set k m1.data)[k']? = _
    rw [List.getElem?_set_ne (Ne.symm hk')]
  · refine ⟨m1.data, ?_, ?_⟩
    · show (g.thread_data.set k m1.data)[k]? = _
      rw [List.getElem?_set_self hklen]
    · rw [post.id_eq]; exact hid

/-- Witness of C7: worker `0` of two on four elements, one iteration. -/
theorem worker_frame_witness :
    ∃ g1, run_thread ieee 0 globals4 = some g1 ∧
      g1.trace = globals4.trace ++ worker_trace 4 2 1 0 ∧
      (∀ x, x ∈ worker_trace 4 2 1 0 → Access.within (start 4 2 0) (end_ 4 2 0) 1 x ∧
        Access.within 0 4 1 x) ∧
      g1.Y[3]? = globals4.Y[3]? ∧ g1.X = globals4.X ∧
      g1.thread_data[1]? = globals4.thread_data[1]? := by
  obtain ⟨g1, h1, h2, h3, h4, _, h5, _, _, _, _, _, h6, _⟩ :=
    worker_frame ieee globals4 0 data0 (by decide) (by decide) (by decide) (by decide)
      rfl rfl rfl rfl rfl
  exact ⟨g1, h1, h2, h3, h4 3 (by decide), h5, h6 1 (by decide)⟩

/-! ## Witnesses and counterexamples for the final vector and the averages -/

/-- Witness of C4: four elements, one iteration, one thread against four threads that
complete in the order `2, 0, 3, 1`. -/
theorem thread_count_invariance_Y_witness :
    ∃ g1 g2, run_threads ieee [0] (init_globals ieee vec4 vec4 one 4 1 1) = some g1 ∧
      run_threads ieee [2, 0, 3, 1] (init_globals ieee vec4 vec4 one 4 4 1) = some g2 ∧
      g1.Y = g2.Y ∧
      (∀ (i : Nat) (x y : Double), vec4[i]? = some x → vec4[i]? = some y →
        g1.Y[i]? = some ((fun v => ieee.add v (ieee.mul one x))^[(1 : Int).toNat] y)) :=
  thread_count_invariance_Y ieee vec4 vec4 one 4 1 4 1 [0] [2, 0, 3, 1]
    (by decide) (by decide) (by decide) (by decide) rfl rfl (by decide) (by decide)

/-- Counterexample to C3 as stated: with `p = 4`, `n_threads = 2`, `max_iters = 1`,
`a = 1.0` and `X = Y = [0.5, 2^-54, 2^-54, 2^-54]` in IEEE-754 arithmetic, `Y` becomes
`[1, 2^-53, 2^-53, 2^-53]`; the program stores `Y_avgs[0] = (1 + 2^-52) / 4`, the
sequential mean of the same `Y` is `1 / 4`. -/
theorem average_differs_from_sequential :
    (compute ieee [0, 1] (init_globals ieee vec4 vec4 one 4 2 1)).map (fun g => (g.Y, g.Y_avgs)) =
      some (Y_after ieee one vec4 vec4 1,
        [Double.fin false (4503599627370497 / 18014398509481984)]) ∧
    mean_seq ieee 4 (Y_after ieee one vec4 vec4 1) = Double.fin false (1 / 4) ∧
    Double.fin false (4503599627370497 / 18014398509481984) ≠ Double.fin false (1 / 4) := by
  decide!

/-- Witness of C3 as amended: exact arithmetic on `X = Y = [1, 2, 3, 4]`, two threads. -/
theorem average_chunked_witness :
    ∃ g, compute exactOps [1, 0] (init_globals exactOps qvec4 qvec4 1 4 2 1) = some g ∧
      g.Y_avgs[0]? = some (mean_chunked exactOps 1 qvec4 qvec4 4 2 0) ∧
      g.Y_avgs[0]? = some (mean_seq exactOps 4 (Y_after exactOps 1 qvec4 qvec4 (0 + 1))) := by
  obtain ⟨g, h1, h2, h3⟩ := average_chunked exactOps qvec4 qvec4 1 4 2 1 [1, 0] 0
    (by decide) (by decide) (by decide) rfl rfl (by decide) (by decide)
  exact ⟨g, h1, h2, h3 (fun x y z => add_assoc x y z) (fun x => zero_add x)
    (fun x => add_zero x)⟩

/-- Counterexample to C5 as stated: with `p = 8`, `max_iters = 1`, `a = 1.0` and
`X = Y = [0.5, 0, 2^-54, 2^-54, 0, 0, 0, 0]` in IEEE-754 arithmetic, one thread stores
`Y_avgs[0] = 1 / 8` and four threads store `Y_avgs[0] = (1 + 2^-52) / 8`. -/
theorem averages_differ_between_thread_counts :
    (compute ieee [0] (init_globals ieee vec8 vec8 one 8 1 1)).map (fun g => g.Y_avgs) =
      some [Double.fin false (1 / 8)] ∧
    (compute ieee [0, 1, 2, 3] (init_globals ieee vec8 vec8 one 8 4 1)).map (fun g => g.Y_avgs) =
      some [Double.fin false (4503599627370497 / 36028797018963968)] ∧
    Double.fin false (1 / 8) ≠ Double.fin false (4503599627370497 / 36028797018963968) := by
  decide!

/-- The averages also differ between one and two threads on values the initialiser
produces: `X[i] = a = 0 / RAND_MAX` and `Y[i] = r / RAND_MAX` for
`r = 1, 1000000, 100000000, 2000000000`, with `RAND_MAX = 2147483647`. -/
theorem averages_differ_on_initialiser_values :
    (compute ieee [0] (init_globals ieee ([0, 0, 0, 0].map (rand_unit 2147483647))
        ([1, 1000000, 100000000, 2000000000].map (rand_unit 2147483647))
        (rand_unit 2147483647 0) 4 1 1)).map (fun g => g.Y_avgs) ≠
    (compute ieee [0, 1] (init_globals ieee ([0, 0, 0, 0].map (rand_unit 2147483647))
        ([1, 1000000, 100000000, 2000000000].map (rand_unit 2147483647))
        (rand_unit 2147483647 0) 4 2 1)).map (fun g => g.Y_avgs) := by
  decide!

/-- Witness of C5 as amended: exact arithmetic on `X = Y = [1, 2, 3, 4]`, one thread
against two. -/
theorem averages_invariance_exact_witness :
    ∃ g1 g2, compute exactOps [0] (init_globals exactOps qvec4 qvec4 1 4 1 1) = some g1 ∧
      compute exactOps [0, 1] (init_globals exactOps qvec4 qvec4 1 4 2 1) = some g2 ∧
      g1.Y_avgs = g2.Y_avgs := by
  obtain ⟨g1, g2, h1, h2, _, _, h5⟩ := averages_invariance_exact exactOps qvec4 qvec4 1 4 1 2 1
    [0] [0, 1] (by decide) (by decide) (by decide) (by decide) rfl rfl (by decide) (by decide)
  exact ⟨g1, g2, h1, h2, h5 (fun x y z => add_assoc x y z) (fun x => zero_add x)
    (fun x => add_zero x)⟩

/-! ## The initialiser -/

/-- Counterexample to C8 as stated: when the generator returns `RAND_MAX` (here
`2147483647`) the stored value is exactly `1.0`, which is not below one. -/
theorem rand_unit_reaches_one :
    rand_unit 2147483647 2147483647 = one ∧
      Double.lt (rand_unit 2147483647 2147483647) one = false := by
  decide!

/-- C8, as amended (initialiser range). For a constant `0 < RAND_MAX ≤ INT_MAX` and every
generator output `r` in `[0, RAND_MAX]`, the value `(double)r / RAND_MAX` stored in
`X[i]`, `Y[i]` and `a` is at least `0.0` and at most `1.0`; it is below `1.0` exactly when
`r < RAND_MAX`. -/
theorem rand_unit_range (RAND_MAX r : Int) (hmax0 : 0 < RAND_MAX) (hmax : RAND_MAX ≤ INT_MAX)
    (hr0 : 0 ≤ r) (hr : r ≤ RAND_MAX) :
    Double.le ieee.zero (rand_unit RAND_MAX r) = true ∧
    Double.le (rand_unit RAND_MAX r) one = true ∧
    (Double.lt (rand_unit RAND_MAX r) one = true ↔ r < RAND_MAX) := by
  obtain ⟨q, hq, h0, h1, hiff⟩ := rand_unit_value RAND_MAX r hmax0 hmax hr0 hr
  rw [hq]
  refine ⟨?_, ?_, ?_⟩
  · simp [Double.le, ieee, signed, h0]
  · simp [Double.le, one, signed, h1]
  · rw [← hiff]
    simp [Double.lt, one, signed]

/-- Witness of C8 as amended: the first output of the generator of glibc for seed `1`. -/
theorem rand_unit_range_witness :
    Double.le ieee.zero (rand_unit 2147483647 1804289383) = true ∧
    Double.le (rand_unit 2147483647 1804289383) one = true ∧
    (Double.lt (rand_unit 2147483647 1804289383) one = true ↔ (1804289383 : Int) < 2147483647) :=
  rand_unit_range 2147483647 1804289383 (by decide) (by decide) (by decide) (by decide)

/-! ## Validation of `-p` -/

theorem strtol_in_range (v : Int) (h1 : -2147483648 ≤ v) (h2 : v ≤ 2147483647)
    (LONG_BITS : Nat) (hb : LONG_BITS = 32 ∨ LONG_BITS = 64) : strtol LONG_BITS v = v := by
  unfold strtol LONG_MIN LONG_MAX
  rcases hb with hb | hb <;> subst hb <;> rw [if_neg (by norm_num; omega), if_neg (by norm_num; omega)]

/-- Values in `[1, 2147483647]` are accepted as they are. -/
theorem parse_p_in_range (v : Int) (h1 : 1 ≤ v) (h2 : v ≤ 2147483647)
    (LONG_BITS : Nat) (hb : LONG_BITS = 32 ∨ LONG_BITS = 64) :
    parse_p LONG_BITS v = some v := by
  have hs := strtol_in_range v (by omega) h2 LONG_BITS hb
  have hl : long_to_int v = v := by unfold long_to_int; omega
  unfold parse_p
  rw [hs, hl, if_pos ⟨by omega, h2⟩]

/-- Values in `[-2147483648, 0]` are rejected by the assertion. -/
theorem parse_p_nonpos (v : Int) (h1 : -2147483648 ≤ v) (h2 : v ≤ 0)
    (LONG_BITS : Nat) (hb : LONG_BITS = 32 ∨ LONG_BITS = 64) :
    parse_p LONG_BITS v = none := by
  have hs := strtol_in_range v h1 (by omega) LONG_BITS hb
  have hl : long_to_int v = v := by unfold long_to_int; omega
  unfold parse_p
  rw [hs, hl, if_neg (by omega)]

/-- The second conjunct of the assertion never fails: every `int` is at most `2147483647`. -/
theorem long_to_int_le (x : Int) : long_to_int x ≤ 2147483647 := by
  unfold long_to_int; omega

/-- C9 (vector-size validation), failing input: `-p 4294967297` is above `2147483647`, yet
with a 64-bit `long` `strtol` returns `4294967297`, the assignment to the `int` `p` keeps
`1`, the assertion holds and the run goes on with `p = 1`. -/
theorem wrapped_size_is_accepted : parse_p 64 4294967297 = some 1 := by decide

/-- A non-positive value is accepted in the same way: `-p -4294967295` gives `p = 1`. -/
theorem negative_size_is_accepted : parse_p 64 (-4294967295) = some 1 := by decide

/-- With a 32-bit `long`, `strtol` returns `LONG_MAX` for `-p 2147483648`, and the run
goes on with `p = 2147483647`. -/
theorem clamped_size_is_accepted : parse_p 32 2147483648 = some 2147483647 := by decide

/-! ## The final report -/

/-- The values one `printf` of the report prints, read by read. -/
theorem print_last3_values {α : Type} (xs : List α) (tag : Int → ReportRead) (n : Int)
    (log : List ReportRead) (vs : List α) :
    (print_last3 xs tag n log).2 = some vs ↔
      ∃ v3 v2 v1, readAt xs (n - 3) = some v3 ∧ readAt xs (n - 2) = some v2 ∧
        readAt xs (n - 1) = some v1 ∧ vs = [v3, v2, v1] := by
  unfold print_last3 read_logged
  cases h3 : readAt xs (n - 3) <;> cases h2 : readAt xs (n - 2) <;>
    cases h1 : readAt xs (n - 1) <;> simp [eq_comm]

/-- The subscripts one `printf` of the report evaluates. -/
theorem print_last3_log {α : Type} (xs : List α) (tag : Int → ReportRead) (n : Int)
    (log : List ReportRead) :
    (print_last3 xs tag n log).1 = log ++ [tag (n - 3), tag (n - 2), tag (n - 1)] := by
  unfold print_last3 read_logged
  simp

/-- C10 (report bounds). The final report evaluates exactly the subscripts `Y[p - 3]`,
`Y[p - 2]`, `Y[p - 1]`, `Y_avgs[max_iters - 3]`, `Y_avgs[max_iters - 2]`,
`Y_avgs[max_iters - 1]`, and what it prints are the values of these six elements. On
arrays of `p` and `max_iters` elements the six subscripts are all inside their arrays if
and only if `p ≥ 3` and `max_iters ≥ 3` (and only then has the report values to print);
when `p` or `max_iters` is `1` or `2` (with `p = 4`, `max_iters = 1` for example) at least
one subscript the report evaluates is negative. -/
theorem report_bounds {α : Type} (Y Y_avgs : List α) (p max_iters : Int)
    (hY : Y.length = p.toNat) (hA : Y_avgs.length = max_iters.toNat) :
    (report Y Y_avgs p max_iters).1 =
      [ReportRead.ofY (p - 3), ReportRead.ofY (p - 2), ReportRead.ofY (p - 1),
        ReportRead.ofAvgs (max_iters - 3), ReportRead.ofAvgs (max_iters - 2),
        ReportRead.ofAvgs (max_iters - 1)] ∧
    (∀ ys vs, (report Y Y_avgs p max_iters).2 = some (ys, vs) ↔
      ∃ y3 y2 y1 v3 v2 v1, readAt Y (p - 3) = some y3 ∧ readAt Y (p - 2) = some y2 ∧
        readAt Y (p - 1) = some y1 ∧ readAt Y_avgs (max_iters - 3) = some v3 ∧
        readAt Y_avgs (max_iters - 2) = some v2 ∧ readAt Y_avgs (max_iters - 1) = some v1 ∧
        ys = [y3, y2, y1] ∧ vs = [v3, v2, v1]) ∧
    ((∀ r, r ∈ (report Y Y_avgs p max_iters).1 → r.inside Y.length Y_avgs.length) ↔
      (3 ≤ p ∧ 3 ≤ max_iters)) ∧
    ((report Y Y_avgs p max_iters).2.isSome ↔ (3 ≤ p ∧ 3 ≤ max_iters)) ∧
    ((p = 1 ∨ p = 2 ∨ max_iters = 1 ∨ max_iters = 2) →
      ∃ r, r ∈ (report Y Y_avgs p max_iters).1 ∧ r.index < 0) := by
  have hlog : (report Y Y_avgs p max_iters).1 =
      [ReportRead.ofY (p - 3), ReportRead.ofY (p - 2), ReportRead.ofY (p - 1),
        ReportRead.ofAvgs (max_iters - 3), ReportRead.ofAvgs (max_iters - 2),
        ReportRead.ofAvgs (max_iters - 1)] := by
    unfold report
    simp [print_last3_log]
  have hvals : ∀ ys vs, (report Y Y_avgs p max_iters).2 = some (ys, vs) ↔
      ∃ y3 y2 y1 v3 v2 v1, readAt Y (p - 3) = some y3 ∧ readAt Y (p - 2) = some y2 ∧
        readAt Y (p - 1) = some y1 ∧ readAt Y_avgs (max_iters - 3) = some v3 ∧
        readAt Y_avgs (max_iters - 2) = some v2 ∧ readAt Y_avgs (max_iters - 1) = some v1 ∧
        ys = [y3, y2, y1] ∧ vs = [v3, v2, v1] := by
    intro ys vs
    have hstep : (report Y Y_avgs p max_iters).2 = some (ys, vs) ↔
        (print_last3 Y ReportRead.ofY p []).2 = some ys ∧
        (print_last3 Y_avgs ReportRead.ofAvgs max_iters
          (print_last3 Y ReportRead.ofY p []).1).2 = some vs := by
      unfold report
      cases h1 : (print_last3 Y ReportRead.ofY p []).2 <;>
        cases h2 : (print_last3 Y_avgs ReportRead.ofAvgs max_iters
          (print_last3 Y ReportRead.ofY p []).1).2 <;> simp
    rw [hstep, print_last3_values, print_last3_values]
    constructor
    · rintro ⟨⟨y3, y2, y1, a1, a2, a3, a4⟩, ⟨v3, v2, v1, b1, b2, b3, b4⟩⟩
      exact ⟨y3, y2, y1, v3, v2, v1, a1, a2, a3, b1, b2, b3, a4, b4⟩
    · rintro ⟨y3, y2, y1, v3, v2, v1, a1, a2, a3, b1, b2, b3, a4, b4⟩
      exact ⟨⟨y3, y2, y1, a1, a2, a3, a4⟩, ⟨v3, v2, v1, b1, b2, b3, b4⟩⟩
  have hin : (∀ r, r ∈ (report Y Y_avgs p max_iters).1 → r.inside Y.length Y_avgs.length) ↔
      (3 ≤ p ∧ 3 ≤ max_iters) := by
    rw [hlog]
    simp only [List.mem_cons, List.mem_singleton, List.not_mem_nil, or_false, forall_eq_or_imp,
      forall_eq, ReportRead.inside, in_bounds]
    rw [hY, hA]
    constructor
    · rintro ⟨⟨h1, _⟩, _, _, ⟨h2, _⟩, _, _⟩
      exact ⟨by omega, by omega⟩
    · rintro ⟨h1, h2⟩
      refine ⟨⟨?_, ?_⟩, ⟨?_, ?_⟩, ⟨?_, ?_⟩, ⟨?_, ?_⟩, ⟨?_, ?_⟩, ⟨?_, ?_⟩⟩ <;> omega
  refine ⟨hlog, hvals, hin, ?_, ?_⟩
  · have hr : ∀ (xs : List α) (i : Int), (∃ v, readAt xs i = some v) ↔ in_bounds xs.length i := by
      intro xs i
      unfold in_bounds
      rw [← readAt_isSome_iff, Option.isSome_iff_exists]
    rw [← hin, hlog]
    simp only [List.mem_cons, List.mem_singleton, List.not_mem_nil, or_false, forall_eq_or_imp,
      forall_eq, ReportRead.inside, ← hr]
    rw [Option.isSome_iff_exists]
    constructor
    · rintro ⟨⟨ys, vs⟩, h⟩
      obtain ⟨y3, y2, y1, v3, v2, v1, a1, a2, a3, b1, b2, b3, _, _⟩ := (hvals ys vs).mp h
      exact ⟨⟨y3, a1⟩, ⟨y2, a2⟩, ⟨y1, a3⟩, ⟨v3, b1⟩, ⟨v2, b2⟩, ⟨v1, b3⟩⟩
    · rintro ⟨⟨y3, a1⟩, ⟨y2, a2⟩, ⟨y1, a3⟩, ⟨v3, b1⟩, ⟨v2, b2⟩, ⟨v1, b3⟩⟩
      exact ⟨([y3, y2, y1], [v3, v2, v1]),
        (hvals _ _).mpr ⟨y3, y2, y1, v3, v2, v1, a1, a2, a3, b1, b2, b3, rfl, rfl⟩⟩
  · intro h
    rw [hlog]
    rcases h with h | h | h | h
    · exact ⟨ReportRead.ofY (p - 3), by simp, by show p - 3 < 0; omega⟩
    · exact ⟨ReportRead.ofY (p - 3), by simp, by show p - 3 < 0; omega⟩
    · exact ⟨ReportRead.ofAvgs (max_iters - 3), by simp, by show max_iters - 3 < 0; omega⟩
    · exact ⟨ReportRead.ofAvgs (max_iters - 3), by simp, by show max_iters - 3 < 0; omega⟩

/-- Witness of C10: the scenario `p = 4`, `max_iters = 1` of the specification; the
report evaluates `Y_avgs[-2]` and has no values to print. -/
theorem report_bounds_witness :
    (report vec4 [one] 4 1).1 =
      [ReportRead.ofY (4 - 3), ReportRead.ofY (4 - 2), ReportRead.ofY (4 - 1),
        ReportRead.ofAvgs (1 - 3), ReportRead.ofAvgs (1 - 2), ReportRead.ofAvgs (1 - 1)] ∧
    ((report vec4 [one] 4 1).2.isSome ↔ ((3 : Int) ≤ 4 ∧ (3 : Int) ≤ 1)) ∧
      ∃ r, r ∈ (report vec4 [one] 4 1).1 ∧ r.index < 0 :=
  have h := report_bounds vec4 [one] 4 1 rfl rfl
  ⟨h.1, h.2.2.2.1, h.2.2.2.2 (Or.inr (Or.inr (Or.inl rfl)))⟩

/-- The report on `p = 4`, `max_iters = 3`: the last three elements of each array. -/
theorem report_in_bounds_example :
    report vec4 [half, one, tiny] 4 3 =
      ([ReportRead.ofY 1, ReportRead.ofY 2, ReportRead.ofY 3,
        ReportRead.ofAvgs 0, ReportRead.ofAvgs 1, ReportRead.ofAvgs 2],
       some ([tiny, tiny, tiny], [half, one, tiny])) := by
  rfl

end Saxpy
